import Mathlib

set_option autoImplicit false

/-!
Verification of the graph-construction core of the pracapublica repository.

The embedded code is `src/networks/base_network.py`, `src/networks/frente_network.py`
and `src/networks/voting_network.py`:

* a pandas `DataFrame` is modelled as a list of typed rows together with the list of
  column labels (`FrenteDF`, `VotingDF`); accessing a column that is not among the
  labels is modelled as failing with `InvalidInputError`, reproducing pandas'
  `KeyError`, at exactly the program points where the Python code touches a column;
* the `networkx.Graph` is modelled by `Graph`: nodes in insertion order with their
  attribute dict, edges in first-insertion order with the endpoint orientation of
  the first `add_edge` call (a networkx attribute update never moves or reorients
  a dict entry).  In both builders every `add_edge` endpoint is an id that the
  node-population loop has already inserted, so edge operations never create nodes;
* `G.edges(data=True)` iterates the adjacency structure: nodes in insertion order
  and, for each node, its not-yet-reported incident edges in the order they were
  first inserted, oriented away from the reporting node.  This view is `edgesData`;
* Python's stable `sorted` by the `weight` key is `List.insertionSort` on that view.
-/

/-- Node attribute record set by `add_node` (keys `nome`, `partido`, `uf`). -/
structure NodeData where
  nome : String
  partido : String
  uf : String
deriving DecidableEq

/-- One stored edge: both endpoints (orientation of the first insertion) and the
`weight` attribute. -/
abbrev Edge := Nat × Nat × Int

/-- The mutable `networkx.Graph` owned by a builder. -/
structure Graph where
  nodes : List (Nat × NodeData)
  edges : List Edge
deriving DecidableEq

/-- The graph a builder owns right after construction. -/
def emptyG : Graph := ⟨[], []⟩

/-- Insert-or-overwrite for the node dict: the first entry with the same key is
overwritten in place, otherwise the entry is appended. -/
def addNodeL (k : Nat) (v : NodeData) : List (Nat × NodeData) → List (Nat × NodeData)
  | [] => [(k, v)]
  | e :: es => if e.1 = k then (k, v) :: es else e :: addNodeL k v es

/-- `G.add_node(k, nome=..., partido=..., uf=...)`. -/
def Graph.add_node (g : Graph) (k : Nat) (v : NodeData) : Graph :=
  ⟨addNodeL k v g.nodes, g.edges⟩

/-- Does stored edge `e` connect `a` and `b` (undirected matching)? -/
def isEdge (a b : Nat) (e : Edge) : Bool :=
  (e.1 == a && e.2.1 == b) || (e.1 == b && e.2.1 == a)

/-- `G.add_edge(a, b, weight=w)`: overwrite the weight of the existing entry for
the unordered pair (keeping its position and orientation), else append. -/
def addEdgeL (a b : Nat) (w : Int) : List Edge → List Edge
  | [] => [(a, b, w)]
  | e :: es => if isEdge a b e then (e.1, e.2.1, w) :: es else e :: addEdgeL a b w es

/-- `G.add_edge(a, b, weight=w)` on the graph. -/
def Graph.add_edge (g : Graph) (a b : Nat) (w : Int) : Graph :=
  ⟨g.nodes, addEdgeL a b w g.edges⟩

/-- `G[a][b]['weight'] += d`: bump the weight of the entry for the unordered pair. -/
def incEdgeL (a b : Nat) (d : Int) : List Edge → List Edge
  | [] => []
  | e :: es => if isEdge a b e then (e.1, e.2.1, e.2.2 + d) :: es else e :: incEdgeL a b d es

/-- Weight increment on the graph. -/
def Graph.inc_edge (g : Graph) (a b : Nat) (d : Int) : Graph :=
  ⟨g.nodes, incEdgeL a b d g.edges⟩

/-- The weight attribute of the edge between `a` and `b`, if the edge exists. -/
def Graph.getW (g : Graph) (a b : Nat) : Option Int :=
  (g.edges.find? (isEdge a b)).map (fun e => e.2.2)

/-- `G.has_edge(a, b)`. -/
def Graph.has_edge (g : Graph) (a b : Nat) : Bool :=
  (g.edges.find? (isEdge a b)).isSome

/-- First-occurrence deduplication with an accumulator of already seen values;
`dedupFA [] l` models both `pandas.drop_duplicates` and the key order of a Python
dict built by repeated assignment. -/
def dedupFA {α : Type} [DecidableEq α] : List α → List α → List α
  | _, [] => []
  | seen, x :: xs => if x ∈ seen then dedupFA seen xs else x :: dedupFA (x :: seen) xs

/-- `itertools.combinations(l, 2)` in its enumeration order. -/
def pairsList {α : Type} : List α → List (α × α)
  | [] => []
  | x :: xs => xs.map (fun y => (x, y)) ++ pairsList xs

section NodePhase

variable {ρ : Type} (idOf : ρ → Nat) (nm pt uf : ρ → String)

/-- `df.loc[df[id] == i, col].iloc[0]`: the attribute of the first row carrying
legislator `i` (only ever used when such a row exists). -/
def firstAttr (f : ρ → String) (rows : List ρ) (i : Nat) : String :=
  ((rows.find? (fun r => idOf r == i)).map f).getD ""

/-- The node-population loop shared by the two builders: one `add_node` call per
distinct (id, name) pair, in first-occurrence order, with party and state read
from the first row of the table carrying that id. -/
def nodeEntries (rows : List ρ) : List (Nat × NodeData) :=
  (dedupFA [] (rows.map (fun r => (idOf r, nm r)))).map
    (fun p => (p.1, ⟨p.2, firstAttr idOf pt rows p.1, firstAttr idOf uf rows p.1⟩))

/-- Run the node-population loop on the owned graph. -/
def applyNodes (g : Graph) (es : List (Nat × NodeData)) : Graph :=
  es.foldl (fun g e => g.add_node e.1 e.2) g

end NodePhase

/-- One row of the membership-network input table. -/
structure FrenteRow where
  id_deputado : Nat
  nome_deputado : String
  siglaPartido_deputado : String
  siglaUf_deputado : String
  titulo : String
deriving DecidableEq

/-- One row of the voting-network input table; `id` is the ballot id. -/
structure VotingRow where
  id_deputado : Nat
  nome : String
  siglaPartido : String
  siglaUf : String
  id : Nat
  tipoVoto : String
deriving DecidableEq

/-- Membership-network input: column labels plus rows. -/
structure FrenteDF where
  cols : List String
  rows : List FrenteRow

/-- Voting-network input: column labels plus rows. -/
structure VotingDF where
  cols : List String
  rows : List VotingRow

/-- A required column is absent; the payload is the missing column name(s)
reported by the failing access (pandas `KeyError`). -/
structure InvalidInputError where
  missing : List String
deriving DecidableEq

instance {ε α : Type} [DecidableEq ε] [DecidableEq α] : DecidableEq (Except ε α)
  | .error a, .error b =>
    if h : a = b then .isTrue (congrArg Except.error h)
    else .isFalse (fun hc => h (Except.error.inj hc))
  | .error _, .ok _ => .isFalse (fun hc => Except.noConfusion hc)
  | .ok _, .error _ => .isFalse (fun hc => Except.noConfusion hc)
  | .ok a, .ok b =>
    if h : a = b then .isTrue (congrArg Except.ok h)
    else .isFalse (fun hc => h (Except.ok.inj hc))

/-- Set of distinct `titulo` values of legislator `i` (`dep_frentes[i]`). -/
def frentesOf (rows : List FrenteRow) (i : Nat) : Finset String :=
  ((rows.filter (fun r => r.id_deputado == i)).map (fun r => r.titulo)).toFinset

/-- Number of shared fronts of `a` and `b`: `len(dep_frentes[a] & dep_frentes[b])`. -/
def pesoF (rows : List FrenteRow) (a b : Nat) : Nat :=
  (frentesOf rows a ∩ frentesOf rows b).card

/-- The `deputados` list: ids of the distinct (id, nome) pairs, in table order
(an id reappears if it occurs with several distinct names). -/
def deputadosF (rows : List FrenteRow) : List Nat :=
  (dedupFA [] (rows.map (fun r => (r.id_deputado, r.nome_deputado)))).map (fun p => p.1)

/-- One iteration of the membership edge loop. -/
def frenteEdgeStep (rows : List FrenteRow) (g : Graph) (p : Nat × Nat) : Graph :=
  let peso := pesoF rows p.1 p.2
  if 0 < peso then g.add_edge p.1 p.2 (peso : Int) else g

/-- Node entries of the membership builder. -/
def frenteEntries (rows : List FrenteRow) : List (Nat × NodeData) :=
  nodeEntries (fun r => r.id_deputado) (fun r => r.nome_deputado)
    (fun r => r.siglaPartido_deputado) (fun r => r.siglaUf_deputado) rows

/-- `FrenteNetwork.build_network` acting on the owned graph `g`, columns aside. -/
def frenteGraphOn (g : Graph) (rows : List FrenteRow) : Graph :=
  (pairsList (deputadosF rows)).foldl (frenteEdgeStep rows)
    (applyNodes g (frenteEntries rows))

/-- Required columns of the membership builder. -/
def requiredFrenteCols : List String :=
  ["id_deputado", "nome_deputado", "siglaPartido_deputado", "siglaUf_deputado", "titulo"]

/-- `FrenteNetwork.build_network`, with `g` the owned graph (`self.G`, empty on a
fresh instance).  Column accesses fail in the order the Python code performs them:
the `df[[id, nome]]` projection, then (only when the node loop runs, i.e. the
table is nonempty) the party and state lookups, then the `groupby(...)['titulo']`
selection. -/
def FrenteNetwork.build_network (df : FrenteDF) (g : Graph) : Except InvalidInputError Graph :=
  let miss := ["id_deputado", "nome_deputado"].filter (fun c => decide (c ∉ df.cols))
  if miss ≠ [] then .error ⟨miss⟩
  else if df.rows ≠ [] ∧ "siglaPartido_deputado" ∉ df.cols then
    .error ⟨["siglaPartido_deputado"]⟩
  else if df.rows ≠ [] ∧ "siglaUf_deputado" ∉ df.cols then
    .error ⟨["siglaUf_deputado"]⟩
  else if "titulo" ∉ df.cols then .error ⟨["titulo"]⟩
  else .ok (frenteGraphOn g df.rows)

/-- Ballot ids in the order `df.groupby('id')` yields the groups: distinct values
sorted ascending. -/
def ballotsOf (rows : List VotingRow) : List Nat :=
  List.insertionSort (fun a b => a ≤ b) (dedupFA [] (rows.map (fun r => r.id)))

/-- The rows of one ballot group, in table order. -/
def ballotGroup (rows : List VotingRow) (v : Nat) : List VotingRow :=
  rows.filter (fun r => r.id == v)

/-- Keys of the `votos` dict of ballot `v`: first-occurrence order, no duplicates. -/
def depsIn (rows : List VotingRow) (v : Nat) : List Nat :=
  dedupFA [] ((ballotGroup rows v).map (fun r => r.id_deputado))

/-- `votos[d]` for ballot `v`: a dict built by repeated assignment keeps the value
of the last row for a duplicated key. -/
def voteOf (rows : List VotingRow) (v d : Nat) : String :=
  ((((ballotGroup rows v).filter (fun r => r.id_deputado == d)).getLast?).map
    (fun r => r.tipoVoto)).getD ""

/-- One iteration of the voting pair loop: lazily create the edge with weight 0,
then bump by +1 on agreement and -1 on disagreement. -/
def votePairStep (vote : Nat → String) (g : Graph) (p : Nat × Nat) : Graph :=
  let g1 := if g.has_edge p.1 p.2 then g else g.add_edge p.1 p.2 0
  g1.inc_edge p.1 p.2 (if vote p.1 = vote p.2 then 1 else -1)

/-- Process one ballot: compare every pair of its participants. -/
def ballotStep (rows : List VotingRow) (g : Graph) (v : Nat) : Graph :=
  (pairsList (depsIn rows v)).foldl (votePairStep (voteOf rows v)) g

/-- Node entries of the voting builder. -/
def votingEntries (rows : List VotingRow) : List (Nat × NodeData) :=
  nodeEntries (fun r => r.id_deputado) (fun r => r.nome)
    (fun r => r.siglaPartido) (fun r => r.siglaUf) rows

/-- `VotingNetwork.build_network` acting on the owned graph, columns aside. -/
def votingGraphOn (g : Graph) (rows : List VotingRow) : Graph :=
  (ballotsOf rows).foldl (ballotStep rows) (applyNodes g (votingEntries rows))

/-- Required columns of the voting builder. -/
def requiredVotingCols : List String :=
  ["id_deputado", "nome", "siglaPartido", "siglaUf", "id", "tipoVoto"]

/-- `VotingNetwork.build_network`, with `g` the owned graph.  Column accesses in
Python order: the `df[[id_deputado, nome]]` projection, the per-row party and
state lookups (nonempty table only), the `groupby('id')` key, and the
`['tipoVoto']` selection inside the group loop (nonempty table only). -/
def VotingNetwork.build_network (df : VotingDF) (g : Graph) : Except InvalidInputError Graph :=
  let miss := ["id_deputado", "nome"].filter (fun c => decide (c ∉ df.cols))
  if miss ≠ [] then .error ⟨miss⟩
  else if df.rows ≠ [] ∧ "siglaPartido" ∉ df.cols then .error ⟨["siglaPartido"]⟩
  else if df.rows ≠ [] ∧ "siglaUf" ∉ df.cols then .error ⟨["siglaUf"]⟩
  else if "id" ∉ df.cols then .error ⟨["id"]⟩
  else if df.rows ≠ [] ∧ "tipoVoto" ∉ df.cols then .error ⟨["tipoVoto"]⟩
  else .ok (votingGraphOn g df.rows)

/-- The end-to-end scenario of spec section 8, used as witness data. -/
def exRows : List FrenteRow :=
  [⟨1, "A", "PT", "SP", "FrenteX"⟩, ⟨1, "A", "PT", "SP", "FrenteY"⟩,
   ⟨2, "B", "PSDB", "RJ", "FrenteY"⟩, ⟨2, "B", "PSDB", "RJ", "FrenteZ"⟩]

/-- Two legislators, two ballots: one agreement and one disagreement. -/
def exVRows : List VotingRow :=
  [⟨1, "A", "PT", "SP", 1, "Sim"⟩, ⟨2, "B", "MDB", "RJ", 1, "Sim"⟩,
   ⟨1, "A", "PT", "SP", 2, "Sim"⟩, ⟨2, "B", "MDB", "RJ", 2, "Não"⟩]

/-- Index of node `i` in the node insertion order. -/
def nodeIdx (g : Graph) (i : Nat) : Nat := g.nodes.findIdx (fun e => e.1 == i)

/-- The endpoint of `e` that reports the edge during `G.edges()` iteration: the
one appearing earlier in node insertion order. -/
def edgeOwner (g : Graph) (e : Edge) : Nat :=
  if nodeIdx g e.1 ≤ nodeIdx g e.2.1 then e.1 else e.2.1

/-- Orient stored edge `e` away from the reporting node `n`. -/
def orientEdge (n : Nat) (e : Edge) : Edge :=
  if e.1 = n then e else (e.2.1, e.1, e.2.2)

/-- Auxiliary traversal for `edgesData`: report, for each node in order, its
owned edges in first-insertion order. -/
def edgesDataAux (g : Graph) : List (Nat × NodeData) → List Edge
  | [] => []
  | n :: ns =>
    ((g.edges.filter (fun e => edgeOwner g e == n.1)).map (orientEdge n.1)) ++ edgesDataAux g ns

/-- `G.edges(data=True)` in networkx iteration order. -/
def edgesData (g : Graph) : List Edge := edgesDataAux g g.nodes

/-- The comparison key of `get_sorted_edges`: the `weight` attribute. -/
def wle (e f : Edge) : Prop := e.2.2 ≤ f.2.2

instance : DecidableRel wle := fun e f => Int.decLe e.2.2 f.2.2

instance : IsTotal Edge wle := ⟨fun e f => Int.le_total e.2.2 f.2.2⟩

instance : IsTrans Edge wle := ⟨fun _ _ _ h1 h2 => le_trans h1 h2⟩

/-- `BaseNetwork.get_sorted_edges`: Python's stable `sorted` of `G.edges(data=True)`
by the weight key. -/
def BaseNetwork.get_sorted_edges (g : Graph) : List Edge :=
  List.insertionSort wle (edgesData g)

/-- Two unordered endpoint pairs coincide. -/
def sameU (x y a b : Nat) : Prop := (x = a ∧ y = b) ∨ (x = b ∧ y = a)

instance {x y a b : Nat} : Decidable (sameU x y a b) := by unfold sameU; infer_instance

theorem sameU_refl (a b : Nat) : sameU a b a b := Or.inl ⟨rfl, rfl⟩

theorem sameU_comm {x y a b : Nat} (h : sameU x y a b) : sameU x y b a := by
  rcases h with ⟨h1, h2⟩ | ⟨h1, h2⟩
  · exact Or.inr ⟨h1, h2⟩
  · exact Or.inl ⟨h1, h2⟩

theorem isEdge_true_iff {a b : Nat} {e : Edge} : isEdge a b e = true ↔ sameU e.1 e.2.1 a b := by
  simp [isEdge, sameU, Bool.or_eq_true, Bool.and_eq_true, beq_iff_eq]

theorem sameU_trans {x y a b c d : Nat} (h1 : sameU x y a b) (h2 : sameU x y c d) :
    sameU a b c d := by
  rcases h1 with ⟨rfl, rfl⟩ | ⟨rfl, rfl⟩ <;>
    rcases h2 with ⟨h3, h4⟩ | ⟨h3, h4⟩ <;> subst h3 <;> subst h4 <;>
      first
      | exact Or.inl ⟨rfl, rfl⟩
      | exact Or.inr ⟨rfl, rfl⟩

theorem isEdge_congr {c d a b : Nat} (h : sameU c d a b) (e : Edge) :
    isEdge a b e = isEdge c d e := by
  rcases h with ⟨rfl, rfl⟩ | ⟨rfl, rfl⟩
  · rfl
  · simp only [isEdge]
    rw [Bool.or_comm]

/-- `isEdge` only inspects the endpoints of the entry. -/
theorem isEdge_reentry (x y : Nat) (e : Edge) (w : Int) :
    isEdge x y (e.1, e.2.1, w) = isEdge x y e := rfl

theorem not_sameU_entry {c d a b : Nat} {e : Edge} (hs : ¬ sameU c d a b)
    (hM : isEdge c d e = true) : isEdge a b e = false := by
  cases h : isEdge a b e
  · rfl
  · exact absurd (sameU_trans (isEdge_true_iff.mp hM) (isEdge_true_iff.mp h)) hs

theorem find?_congr_pred {α : Type} {p q : α → Bool} (h : ∀ x, p x = q x) :
    ∀ l : List α, l.find? p = l.find? q := by
  intro l
  induction l with
  | nil => rfl
  | cons x xs ih => simp only [List.find?, h x, ih]

theorem getW_congr {c d a b : Nat} (g : Graph) (h : sameU c d a b) :
    g.getW a b = g.getW c d := by
  unfold Graph.getW
  rw [find?_congr_pred (isEdge_congr h) g.edges]

theorem has_edge_eq_isSome (g : Graph) (a b : Nat) :
    g.has_edge a b = (g.getW a b).isSome := by
  unfold Graph.has_edge Graph.getW
  cases g.edges.find? (isEdge a b) <;> rfl

/-- Weight lookup on a raw edge list. -/
def getWL (es : List Edge) (a b : Nat) : Option Int :=
  (es.find? (isEdge a b)).map (fun e => e.2.2)

theorem getW_eq_getWL (g : Graph) (a b : Nat) : g.getW a b = getWL g.edges a b := rfl

theorem getWL_addEdgeL (c d : Nat) (w : Int) (a b : Nat) :
    ∀ es : List Edge, getWL (addEdgeL c d w es) a b =
      if sameU c d a b then some w else getWL es a b := by
  by_cases hs : sameU c d a b
  · simp only [if_pos hs]
    intro es
    induction es with
    | nil =>
      have h1 : isEdge a b (c, d, w) = true := by
        rw [isEdge_congr hs]
        exact isEdge_true_iff.mpr (sameU_refl c d)
      simp [getWL, addEdgeL, List.find?, h1]
    | cons e es ih =>
      cases hM : isEdge c d e
      · have hE : isEdge a b e = false := by rw [isEdge_congr hs]; exact hM
        simpa [addEdgeL, hM, getWL, List.find?, hE] using ih
      · have hE : isEdge a b (e.1, e.2.1, w) = true := by
          rw [isEdge_reentry, isEdge_congr hs]
          exact hM
        simp [addEdgeL, hM, getWL, List.find?, hE]
  · simp only [if_neg hs]
    intro es
    induction es with
    | nil =>
      have h1 : isEdge a b (c, d, w) = false := by
        cases h : isEdge a b (c, d, w)
        · rfl
        · exact absurd (isEdge_true_iff.mp h) hs
      simp [getWL, addEdgeL, List.find?, h1]
    | cons e es ih =>
      cases hM : isEdge c d e
      · cases hE : isEdge a b e
        · simpa [addEdgeL, hM, getWL, List.find?, hE] using ih
        · simp [addEdgeL, hM, getWL, List.find?, hE]
      · have hE : isEdge a b e = false := not_sameU_entry hs hM
        have hE2 : isEdge a b (e.1, e.2.1, w) = false := by rw [isEdge_reentry]; exact hE
        simp [addEdgeL, hM, getWL, List.find?, hE, hE2]

theorem getWL_incEdgeL (c d : Nat) (w : Int) (a b : Nat) :
    ∀ es : List Edge, getWL (incEdgeL c d w es) a b =
      if sameU c d a b then (getWL es a b).map (fun v => v + w) else getWL es a b := by
  by_cases hs : sameU c d a b
  · simp only [if_pos hs]
    intro es
    induction es with
    | nil => simp [getWL, incEdgeL, List.find?]
    | cons e es ih =>
      cases hM : isEdge c d e
      · have hE : isEdge a b e = false := by rw [isEdge_congr hs]; exact hM
        simpa [incEdgeL, hM, getWL, List.find?, hE] using ih
      · have hE : isEdge a b (e.1, e.2.1, e.2.2 + w) = true := by
          rw [isEdge_reentry, isEdge_congr hs]
          exact hM
        have hEe : isEdge a b e = true := by rw [isEdge_congr hs]; exact hM
        simp [incEdgeL, hM, getWL, List.find?, hE, hEe]
  · simp only [if_neg hs]
    intro es
    induction es with
    | nil => simp [getWL, incEdgeL]
    | cons e es ih =>
      cases hM : isEdge c d e
      · cases hE : isEdge a b e
        · simpa [incEdgeL, hM, getWL, List.find?, hE] using ih
        · simp [incEdgeL, hM, getWL, List.find?, hE]
      · have hE : isEdge a b e = false := not_sameU_entry hs hM
        have hE2 : isEdge a b (e.1, e.2.1, e.2.2 + w) = false := by rw [isEdge_reentry]; exact hE
        simp [incEdgeL, hM, getWL, List.find?, hE, hE2]

/-- A fold whose every step fixes the accumulator fixes the fold. -/
theorem foldl_fixed {α β : Type} {f : α → β → α} {a : α} :
    ∀ l : List β, (∀ x ∈ l, f a x = a) → l.foldl f a = a := by
  intro l
  induction l with
  | nil => intro _; rfl
  | cons x xs ih =>
    intro h
    simp only [List.foldl, h x (List.mem_cons_self x xs)]
    exact ih (fun y hy => h y (List.mem_cons_of_mem x hy))

/-- A fold preserves an invariant preserved by every step it takes. -/
theorem foldl_preserve {α β : Type} (Q : α → Prop) {f : α → β → α} :
    ∀ (l : List β) (a : α), (∀ x ∈ l, ∀ b, Q b → Q (f b x)) → Q a → Q (l.foldl f a) := by
  intro l
  induction l with
  | nil => intro a _ ha; exact ha
  | cons x xs ih =>
    intro a h ha
    exact ih (f a x) (fun y hy => h y (List.mem_cons_of_mem x hy))
      (h x (List.mem_cons_self x xs) a ha)

theorem mem_dedupFA {α : Type} [DecidableEq α] {x : α} :
    ∀ (l seen : List α), x ∈ dedupFA seen l ↔ (x ∈ l ∧ x ∉ seen) := by
  intro l
  induction l with
  | nil => intro seen; simp [dedupFA]
  | cons y ys ih =>
    intro seen
    by_cases hy : y ∈ seen
    · rw [show dedupFA seen (y :: ys) = dedupFA seen ys from by simp [dedupFA, hy], ih]
      simp only [List.mem_cons]
      constructor
      · rintro ⟨h1, h2⟩
        exact ⟨Or.inr h1, h2⟩
      · rintro ⟨h1 | h1, h2⟩
        · exact absurd (h1 ▸ hy) h2
        · exact ⟨h1, h2⟩
    · rw [show dedupFA seen (y :: ys) = y :: dedupFA (y :: seen) ys from by simp [dedupFA, hy]]
      simp only [List.mem_cons, ih]
      constructor
      · rintro (rfl | ⟨h1, h2⟩)
        · exact ⟨Or.inl rfl, hy⟩
        · exact ⟨Or.inr h1, fun hc => h2 (Or.inr hc)⟩
      · rintro ⟨h1 | h1, h2⟩
        · exact Or.inl h1
        · by_cases hxy : x = y
          · exact Or.inl hxy
          · exact Or.inr ⟨h1, fun hc => hc.elim hxy h2⟩

theorem dedupFA_nodup {α : Type} [DecidableEq α] : ∀ (l seen : List α), (dedupFA seen l).Nodup := by
  intro l
  induction l with
  | nil => intro seen; simp [dedupFA]
  | cons y ys ih =>
    intro seen
    by_cases hy : y ∈ seen
    · simpa [dedupFA, hy] using ih seen
    · rw [show dedupFA seen (y :: ys) = y :: dedupFA (y :: seen) ys from by simp [dedupFA, hy],
        List.nodup_cons]
      refine ⟨fun hc => ?_, ih (y :: seen)⟩
      exact ((mem_dedupFA ys (y :: seen)).mp hc).2 (List.mem_cons_self y seen)

theorem find?_dedupFA {α : Type} [DecidableEq α] (p : α → Bool) :
    ∀ (l seen : List α), (∀ s ∈ seen, p s = false) → (dedupFA seen l).find? p = l.find? p := by
  intro l
  induction l with
  | nil => intro seen _; rfl
  | cons y ys ih =>
    intro seen h
    by_cases hy : y ∈ seen
    · have hp : p y = false := h y hy
      rw [show dedupFA seen (y :: ys) = dedupFA seen ys from by simp [dedupFA, hy]]
      rw [ih seen h]
      simp [List.find?, hp]
    · rw [show dedupFA seen (y :: ys) = y :: dedupFA (y :: seen) ys from by simp [dedupFA, hy]]
      cases hp : p y
      · simp only [List.find?, hp]
        refine ih (y :: seen) ?_
        intro s hs
        rcases List.mem_cons.mp hs with rfl | hs
        · exact hp
        · exact h s hs
      · simp [List.find?, hp]

theorem mem_pairsList {α : Type} {x y : α} :
    ∀ l : List α, (x, y) ∈ pairsList l → x ∈ l ∧ y ∈ l := by
  intro l
  induction l with
  | nil => simp [pairsList]
  | cons z zs ih =>
    intro h
    rcases List.mem_append.mp h with h1 | h1
    · obtain ⟨w, hw, he⟩ := List.mem_map.mp h1
      injection he with h2 h3
      subst h2
      subst h3
      exact ⟨List.mem_cons_self z zs, List.mem_cons_of_mem z hw⟩
    · obtain ⟨h2, h3⟩ := ih h1
      exact ⟨List.mem_cons_of_mem z h2, List.mem_cons_of_mem z h3⟩

theorem pairsList_covers {a b : Nat} :
    ∀ l : List Nat, a ∈ l → b ∈ l → a ≠ b → ∃ p ∈ pairsList l, sameU p.1 p.2 a b := by
  intro l
  induction l with
  | nil => intro h; simp at h
  | cons x xs ih =>
    intro ha hb hne
    rcases List.mem_cons.mp ha with rfl | ha'
    · have hbxs : b ∈ xs := by
        rcases List.mem_cons.mp hb with h | h
        · exact absurd h.symm hne
        · exact h
      refine ⟨(a, b), List.mem_append_left _ (List.mem_map.mpr ⟨b, hbxs, rfl⟩), sameU_refl a b⟩
    · rcases List.mem_cons.mp hb with rfl | hb'
      · refine ⟨(b, a), List.mem_append_left _ (List.mem_map.mpr ⟨a, ha', rfl⟩),
          Or.inr ⟨rfl, rfl⟩⟩
      · obtain ⟨p, hp, hs⟩ := ih ha' hb' hne
        exact ⟨p, List.mem_append_right _ hp, hs⟩

theorem pairsList_distinct {α : Type} : ∀ {l : List α}, l.Nodup → ∀ p ∈ pairsList l, p.1 ≠ p.2 := by
  intro l
  induction l with
  | nil => intro _ p hp; simp [pairsList] at hp
  | cons x xs ih =>
    intro h p hp
    rw [List.nodup_cons] at h
    rcases List.mem_append.mp hp with h1 | h1
    · obtain ⟨w, hw, he⟩ := List.mem_map.mp h1
      subst he
      intro hc
      simp only at hc
      exact h.1 (by rw [hc]; exact hw)
    · exact ih h.2 p h1

/-- Node-phase fold on the bare node list. -/
def napply (ns es : List (Nat × NodeData)) : List (Nat × NodeData) :=
  es.foldl (fun ns e => addNodeL e.1 e.2 ns) ns

theorem applyNodes_eq (es : List (Nat × NodeData)) :
    ∀ g : Graph, applyNodes g es = ⟨napply g.nodes es, g.edges⟩ := by
  induction es with
  | nil => intro g; rfl
  | cons e es ih =>
    intro g
    show applyNodes (g.add_node e.1 e.2) es = _
    rw [ih]
    rfl

theorem keys_addNodeL (k : Nat) (v : NodeData) :
    ∀ ns : List (Nat × NodeData), (addNodeL k v ns).map Prod.fst =
      if k ∈ ns.map Prod.fst then ns.map Prod.fst else ns.map Prod.fst ++ [k] := by
  intro ns
  induction ns with
  | nil => simp [addNodeL]
  | cons e es ih =>
    by_cases he : e.1 = k
    · simp [addNodeL, he]
    · have hne : ¬ k = e.1 := fun hc => he hc.symm
      simp only [addNodeL, if_neg he, List.map_cons, List.mem_cons, ih]
      by_cases hk : k ∈ es.map Prod.fst
      · simp [hk, hne]
      · simp [hk, hne]

theorem addNodeL_not_mem (k : Nat) (v : NodeData) :
    ∀ ns : List (Nat × NodeData), k ∉ ns.map Prod.fst → addNodeL k v ns = ns ++ [(k, v)] := by
  intro ns
  induction ns with
  | nil => intro _; rfl
  | cons e es ih =>
    intro h
    have he : e.1 ≠ k := by
      intro hc
      exact h (by simp [hc])
    rw [show addNodeL k v (e :: es) = e :: addNodeL k v es from by simp [addNodeL, he]]
    rw [ih (fun hc => h (by simp [hc]))]
    rfl

theorem mem_keys_napply (i : Nat) :
    ∀ (es ns : List (Nat × NodeData)), i ∈ (napply ns es).map Prod.fst ↔
      i ∈ ns.map Prod.fst ∨ i ∈ es.map Prod.fst := by
  intro es
  induction es with
  | nil => intro ns; simp [napply]
  | cons e es ih =>
    intro ns
    show i ∈ (napply (addNodeL e.1 e.2 ns) es).map Prod.fst ↔ _
    rw [ih, keys_addNodeL]
    by_cases hk : e.1 ∈ ns.map Prod.fst
    · rw [if_pos hk]
      simp only [List.map_cons, List.mem_cons]
      constructor
      · tauto
      · rintro (h | h | h)
        · exact Or.inl h
        · exact Or.inl (h ▸ hk)
        · exact Or.inr h
    · rw [if_neg hk]
      simp only [List.mem_append, List.mem_cons, List.not_mem_nil, or_false, List.map_cons]
      tauto

theorem keys_napply_nodup :
    ∀ (es ns : List (Nat × NodeData)), (ns.map Prod.fst).Nodup →
      ((napply ns es).map Prod.fst).Nodup := by
  intro es
  induction es with
  | nil => intro ns h; exact h
  | cons e es ih =>
    intro ns h
    show ((napply (addNodeL e.1 e.2 ns) es).map Prod.fst).Nodup
    refine ih _ ?_
    rw [keys_addNodeL]
    by_cases hk : e.1 ∈ ns.map Prod.fst
    · rw [if_pos hk]; exact h
    · rw [if_neg hk]
      simp [List.nodup_append, h, hk]

theorem napply_fresh :
    ∀ (es ns : List (Nat × NodeData)), (es.map Prod.fst).Nodup →
      (∀ k ∈ es.map Prod.fst, k ∉ ns.map Prod.fst) → napply ns es = ns ++ es := by
  intro es
  induction es with
  | nil => intro ns _ _; simp [napply]
  | cons e es ih =>
    intro ns hnd hdisj
    show napply (addNodeL e.1 e.2 ns) es = _
    rw [addNodeL_not_mem e.1 e.2 ns (hdisj e.1 (by simp))]
    rw [List.map_cons, List.nodup_cons] at hnd
    have hstep : napply (ns ++ [(e.1, e.2)]) es = (ns ++ [(e.1, e.2)]) ++ es := by
      refine ih _ hnd.2 ?_
      intro k hk
      simp only [List.map_append, List.mem_append, List.map_cons, List.map_nil, List.mem_cons,
        List.not_mem_nil, or_false]
      rintro (hc | hc)
      · exact hdisj k (by simp [hk]) hc
      · exact hnd.1 (hc ▸ hk)
    rw [hstep, List.append_assoc]
    rfl

theorem edges_applyNodes (g : Graph) (es : List (Nat × NodeData)) :
    (applyNodes g es).edges = g.edges := by
  rw [applyNodes_eq]

/-- Edge-phase steps never touch the node list. -/
theorem nodes_foldl_inv {β : Type} {step : Graph → β → Graph}
    (hstep : ∀ g x, (step g x).nodes = g.nodes) :
    ∀ (l : List β) (g : Graph), (l.foldl step g).nodes = g.nodes := by
  intro l
  induction l with
  | nil => intro g; rfl
  | cons x xs ih =>
    intro g
    show (xs.foldl step (step g x)).nodes = g.nodes
    rw [ih, hstep]

theorem nodes_frenteEdgeStep (rows : List FrenteRow) (g : Graph) (p : Nat × Nat) :
    (frenteEdgeStep rows g p).nodes = g.nodes := by
  unfold frenteEdgeStep
  by_cases h : 0 < pesoF rows p.1 p.2
  · simp [h, Graph.add_edge]
  · simp [h]

theorem nodes_votePairStep (vote : Nat → String) (g : Graph) (p : Nat × Nat) :
    (votePairStep vote g p).nodes = g.nodes := by
  unfold votePairStep
  by_cases h : g.has_edge p.1 p.2
  · simp [h, Graph.inc_edge]
  · simp [h, Graph.inc_edge, Graph.add_edge]

theorem nodes_ballotStep (rows : List VotingRow) (g : Graph) (v : Nat) :
    (ballotStep rows g v).nodes = g.nodes :=
  nodes_foldl_inv (nodes_votePairStep (voteOf rows v)) _ g

/-- The membership build with explicit node and edge components. -/
theorem frenteGraphOn_eq (g : Graph) (rows : List FrenteRow) :
    frenteGraphOn g rows =
      (pairsList (deputadosF rows)).foldl (frenteEdgeStep rows)
        ⟨napply g.nodes (frenteEntries rows), g.edges⟩ := by
  unfold frenteGraphOn
  rw [applyNodes_eq]

/-- The voting build with explicit node and edge components. -/
theorem votingGraphOn_eq (g : Graph) (rows : List VotingRow) :
    votingGraphOn g rows =
      (ballotsOf rows).foldl (ballotStep rows)
        ⟨napply g.nodes (votingEntries rows), g.edges⟩ := by
  unfold votingGraphOn
  rw [applyNodes_eq]

theorem frenteGraphOn_nodes (g : Graph) (rows : List FrenteRow) :
    (frenteGraphOn g rows).nodes = napply g.nodes (frenteEntries rows) := by
  rw [frenteGraphOn_eq, nodes_foldl_inv (nodes_frenteEdgeStep rows)]

theorem votingGraphOn_nodes (g : Graph) (rows : List VotingRow) :
    (votingGraphOn g rows).nodes = napply g.nodes (votingEntries rows) := by
  rw [votingGraphOn_eq, nodes_foldl_inv (nodes_ballotStep rows)]

theorem peso_congr {rows : List FrenteRow} {c d a b : Nat} (h : sameU c d a b) :
    pesoF rows c d = pesoF rows a b := by
  rcases h with ⟨rfl, rfl⟩ | ⟨rfl, rfl⟩
  · rfl
  · unfold pesoF
    rw [Finset.inter_comm]

theorem getW_frenteEdgeStep (rows : List FrenteRow) (g : Graph) (p : Nat × Nat) (a b : Nat) :
    (frenteEdgeStep rows g p).getW a b =
      if sameU p.1 p.2 a b ∧ 0 < pesoF rows a b then some ((pesoF rows a b : Int))
      else g.getW a b := by
  rw [show frenteEdgeStep rows g p =
      if 0 < pesoF rows p.1 p.2 then g.add_edge p.1 p.2 ((pesoF rows p.1 p.2 : Int)) else g
    from rfl]
  by_cases hs : sameU p.1 p.2 a b
  · have hw : pesoF rows p.1 p.2 = pesoF rows a b := peso_congr hs
    by_cases hp : 0 < pesoF rows p.1 p.2
    · rw [if_pos hp]
      rw [show (g.add_edge p.1 p.2 ((pesoF rows p.1 p.2 : Int))).getW a b =
          getWL (addEdgeL p.1 p.2 ((pesoF rows p.1 p.2 : Int)) g.edges) a b from rfl]
      rw [getWL_addEdgeL, if_pos hs, hw, if_pos ⟨hs, hw ▸ hp⟩]
    · rw [if_neg hp, if_neg]
      rintro ⟨_, hc⟩
      exact hp (hw ▸ hc)
  · by_cases hp : 0 < pesoF rows p.1 p.2
    · rw [if_pos hp]
      rw [show (g.add_edge p.1 p.2 ((pesoF rows p.1 p.2 : Int))).getW a b =
          getWL (addEdgeL p.1 p.2 ((pesoF rows p.1 p.2 : Int)) g.edges) a b from rfl]
      rw [getWL_addEdgeL, if_neg hs, if_neg (fun hc => hs hc.1)]
      rfl
    · rw [if_neg hp, if_neg (fun hc => hs hc.1)]

theorem getW_frenteFold (rows : List FrenteRow) :
    ∀ (L : List (Nat × Nat)) (g : Graph) (a b : Nat),
      (L.foldl (frenteEdgeStep rows) g).getW a b =
        if (∃ p ∈ L, sameU p.1 p.2 a b) ∧ 0 < pesoF rows a b
        then some ((pesoF rows a b : Int)) else g.getW a b := by
  intro L
  induction L with
  | nil =>
    intro g a b
    rw [if_neg]
    · rfl
    · rintro ⟨⟨q, hq, _⟩, _⟩
      exact List.not_mem_nil q hq
  | cons p L ih =>
    intro g a b
    show ((L.foldl _ (frenteEdgeStep rows g p)).getW a b) = _
    rw [ih, getW_frenteEdgeStep]
    by_cases hpos : 0 < pesoF rows a b
    · by_cases hex : ∃ q ∈ L, sameU q.1 q.2 a b
      · rw [if_pos ⟨hex, hpos⟩, if_pos]
        obtain ⟨q, hq, hsq⟩ := hex
        exact ⟨⟨q, List.mem_cons_of_mem p hq, hsq⟩, hpos⟩
      · rw [if_neg (fun hc => hex hc.1)]
        by_cases hs : sameU p.1 p.2 a b
        · rw [if_pos ⟨hs, hpos⟩, if_pos ⟨⟨p, List.mem_cons_self p L, hs⟩, hpos⟩]
        · rw [if_neg (fun hc => hs hc.1), if_neg]
          rintro ⟨⟨q, hq, hsq⟩, _⟩
          rcases List.mem_cons.mp hq with rfl | hq'
          · exact hs hsq
          · exact hex ⟨q, hq', hsq⟩
    · rw [if_neg (fun hc => hpos hc.2), if_neg (fun hc => hpos hc.2),
        if_neg (fun hc => hpos hc.2)]

theorem mem_deputadosF {i : Nat} (rows : List FrenteRow) :
    i ∈ deputadosF rows ↔ ∃ r ∈ rows, r.id_deputado = i := by
  unfold deputadosF
  simp only [List.mem_map]
  constructor
  · rintro ⟨p, hp, rfl⟩
    obtain ⟨hp1, _⟩ := (mem_dedupFA _ _).mp hp
    obtain ⟨r, hr, he⟩ := List.mem_map.mp hp1
    exact ⟨r, hr, congrArg Prod.fst he⟩
  · rintro ⟨r, hr, rfl⟩
    refine ⟨(r.id_deputado, r.nome_deputado), ?_, rfl⟩
    rw [mem_dedupFA]
    exact ⟨List.mem_map.mpr ⟨r, hr, rfl⟩, List.not_mem_nil _⟩

/-- The node keys entering the voting node loop. -/
def deputadosV (rows : List VotingRow) : List Nat :=
  (dedupFA [] (rows.map (fun r => (r.id_deputado, r.nome)))).map (fun p => p.1)

theorem mem_deputadosV {i : Nat} (rows : List VotingRow) :
    i ∈ deputadosV rows ↔ ∃ r ∈ rows, r.id_deputado = i := by
  unfold deputadosV
  simp only [List.mem_map]
  constructor
  · rintro ⟨p, hp, rfl⟩
    obtain ⟨hp1, _⟩ := (mem_dedupFA _ _).mp hp
    obtain ⟨r, hr, he⟩ := List.mem_map.mp hp1
    exact ⟨r, hr, congrArg Prod.fst he⟩
  · rintro ⟨r, hr, rfl⟩
    refine ⟨(r.id_deputado, r.nome), ?_, rfl⟩
    rw [mem_dedupFA]
    exact ⟨List.mem_map.mpr ⟨r, hr, rfl⟩, List.not_mem_nil _⟩

theorem keys_frenteEntries (rows : List FrenteRow) :
    (frenteEntries rows).map Prod.fst = deputadosF rows := by
  unfold frenteEntries nodeEntries deputadosF
  rw [List.map_map]
  rfl

theorem keys_votingEntries (rows : List VotingRow) :
    (votingEntries rows).map Prod.fst = deputadosV rows := by
  unfold votingEntries nodeEntries deputadosV
  rw [List.map_map]
  rfl

theorem mem_depsIn {d v : Nat} (rows : List VotingRow) :
    d ∈ depsIn rows v ↔ ∃ r ∈ rows, r.id = v ∧ r.id_deputado = d := by
  unfold depsIn ballotGroup
  rw [mem_dedupFA]
  simp only [List.not_mem_nil, not_false_iff, and_true, List.mem_map, List.mem_filter,
    beq_iff_eq]
  constructor
  · rintro ⟨r, ⟨hr, hid⟩, rfl⟩
    exact ⟨r, hr, hid, rfl⟩
  · rintro ⟨r, hr, hid, rfl⟩
    exact ⟨r, ⟨hr, hid⟩, rfl⟩

theorem depsIn_nodup (rows : List VotingRow) (v : Nat) : (depsIn rows v).Nodup :=
  dedupFA_nodup _ _

/-- Weight characterization of the finished membership graph, for any two distinct
legislators present in the table. -/
theorem frenteGraphOn_getW (rows : List FrenteRow) (a b : Nat)
    (ha : ∃ r ∈ rows, r.id_deputado = a) (hb : ∃ r ∈ rows, r.id_deputado = b)
    (hab : a ≠ b) :
    (frenteGraphOn emptyG rows).getW a b =
      if 0 < pesoF rows a b then some ((pesoF rows a b : Int)) else none := by
  rw [frenteGraphOn_eq, getW_frenteFold]
  have hex : ∃ p ∈ pairsList (deputadosF rows), sameU p.1 p.2 a b :=
    pairsList_covers _ ((mem_deputadosF rows).mpr ha) ((mem_deputadosF rows).mpr hb) hab
  by_cases hpos : 0 < pesoF rows a b
  · rw [if_pos ⟨hex, hpos⟩, if_pos hpos]
  · rw [if_neg (fun hc => hpos hc.2), if_neg hpos]
    rfl

theorem if_sign_comm {s t : String} :
    (if s = t then (1 : Int) else -1) = (if t = s then (1 : Int) else -1) := by
  by_cases h : s = t
  · rw [if_pos h, if_pos h.symm]
  · rw [if_neg h, if_neg (fun hc => h hc.symm)]

theorem getW_votePairStep (vote : Nat → String) (g : Graph) (c d a b : Nat) :
    (votePairStep vote g (c, d)).getW a b =
      if sameU c d a b then
        some ((g.getW a b).getD 0 + (if vote a = vote b then (1 : Int) else -1))
      else g.getW a b := by
  rw [show votePairStep vote g (c, d) =
      ((if g.has_edge c d = true then g else g.add_edge c d 0).inc_edge c d
        (if vote c = vote d then 1 else -1)) from rfl]
  by_cases hs : sameU c d a b
  · have hd : (if vote c = vote d then (1 : Int) else -1) =
        (if vote a = vote b then (1 : Int) else -1) := by
      rcases hs with ⟨h1, h2⟩ | ⟨h1, h2⟩
      · rw [h1, h2]
      · rw [h1, h2]
        exact if_sign_comm
    by_cases hh : g.has_edge c d = true
    · rw [if_pos hh]
      rw [show (g.inc_edge c d (if vote c = vote d then 1 else -1)).getW a b =
          getWL (incEdgeL c d (if vote c = vote d then 1 else -1) g.edges) a b from rfl]
      rw [getWL_incEdgeL, if_pos hs, if_pos hs, hd]
      have hsome : (g.getW c d).isSome = true := by
        rw [← has_edge_eq_isSome]
        exact hh
      obtain ⟨w, hw⟩ := Option.isSome_iff_exists.mp hsome
      have hab2 : g.getW a b = some w := by rw [getW_congr g hs]; exact hw
      rw [show getWL g.edges a b = g.getW a b from rfl, hab2]
      rfl
    · rw [if_neg hh]
      rw [show ((g.add_edge c d 0).inc_edge c d
          (if vote c = vote d then 1 else -1)).getW a b =
          getWL (incEdgeL c d (if vote c = vote d then 1 else -1)
            (addEdgeL c d 0 g.edges)) a b from rfl]
      rw [getWL_incEdgeL, if_pos hs, getWL_addEdgeL, if_pos hs, if_pos hs, hd]
      have hnone : g.getW a b = none := by
        rw [getW_congr g hs]
        rw [has_edge_eq_isSome] at hh
        exact Option.not_isSome_iff_eq_none.mp (fun hc => hh hc)
      rw [hnone]
      rfl
  · by_cases hh : g.has_edge c d = true
    · rw [if_pos hh]
      rw [show (g.inc_edge c d (if vote c = vote d then 1 else -1)).getW a b =
          getWL (incEdgeL c d (if vote c = vote d then 1 else -1) g.edges) a b from rfl]
      rw [getWL_incEdgeL, if_neg hs, if_neg hs]
      rfl
    · rw [if_neg hh]
      rw [show ((g.add_edge c d 0).inc_edge c d
          (if vote c = vote d then 1 else -1)).getW a b =
          getWL (incEdgeL c d (if vote c = vote d then 1 else -1)
            (addEdgeL c d 0 g.edges)) a b from rfl]
      rw [getWL_incEdgeL, if_neg hs, getWL_addEdgeL, if_neg hs, if_neg hs]
      rfl

/-- Effect, on the pair (a, b), of comparing `x` against every member of `xs`. -/
theorem getW_voteMapFold (vote : Nat → String) (x a b : Nat) (hab : a ≠ b) :
    ∀ (xs : List Nat) (g : Graph), xs.Nodup → x ∉ xs →
      (((xs.map (fun y => (x, y))).foldl (votePairStep vote) g).getW a b) =
        if (x = a ∧ b ∈ xs) ∨ (x = b ∧ a ∈ xs) then
          some ((g.getW a b).getD 0 + (if vote a = vote b then (1 : Int) else -1))
        else g.getW a b := by
  intro xs
  induction xs with
  | nil =>
    intro g _ _
    rw [if_neg]
    · rfl
    · rintro (⟨_, hc⟩ | ⟨_, hc⟩) <;> exact List.not_mem_nil _ hc
  | cons y ys ih =>
    intro g hnd hx
    rw [List.nodup_cons] at hnd
    have hxys : x ∉ ys := fun hc => hx (List.mem_cons_of_mem y hc)
    show (((ys.map (fun y => (x, y))).foldl (votePairStep vote)
      (votePairStep vote g (x, y))).getW a b) = _
    rw [ih _ hnd.2 hxys, getW_votePairStep]
    by_cases hs : sameU x y a b
    · have hrest : ¬ ((x = a ∧ b ∈ ys) ∨ (x = b ∧ a ∈ ys)) := by
        rcases hs with ⟨h1, h2⟩ | ⟨h1, h2⟩
        · rintro (⟨_, hc⟩ | ⟨he, _⟩)
          · exact hnd.1 (by rw [h2]; exact hc)
          · exact hab (h1.symm.trans he)
        · rintro (⟨he, _⟩ | ⟨_, hc⟩)
          · exact hab (he.symm.trans h1)
          · exact hnd.1 (by rw [h2]; exact hc)
      have hcons : (x = a ∧ b ∈ y :: ys) ∨ (x = b ∧ a ∈ y :: ys) := by
        rcases hs with ⟨h1, h2⟩ | ⟨h1, h2⟩
        · exact Or.inl ⟨h1, by rw [← h2]; exact List.mem_cons_self y ys⟩
        · exact Or.inr ⟨h1, by rw [← h2]; exact List.mem_cons_self y ys⟩
      rw [if_neg hrest, if_pos hs, if_pos hcons]
    · by_cases hrest : (x = a ∧ b ∈ ys) ∨ (x = b ∧ a ∈ ys)
      · have hcons : (x = a ∧ b ∈ y :: ys) ∨ (x = b ∧ a ∈ y :: ys) := by
          rcases hrest with ⟨h1, hc⟩ | ⟨h1, hc⟩
          · exact Or.inl ⟨h1, List.mem_cons_of_mem y hc⟩
          · exact Or.inr ⟨h1, List.mem_cons_of_mem y hc⟩
        rw [if_pos hrest, if_neg hs, if_pos hcons]
      · rw [if_neg hrest, if_neg hs, if_neg]
        rintro (⟨rfl, hc⟩ | ⟨rfl, hc⟩)
        · rcases List.mem_cons.mp hc with rfl | hc'
          · exact hs (Or.inl ⟨rfl, rfl⟩)
          · exact hrest (Or.inl ⟨rfl, hc'⟩)
        · rcases List.mem_cons.mp hc with rfl | hc'
          · exact hs (Or.inr ⟨rfl, rfl⟩)
          · exact hrest (Or.inr ⟨rfl, hc'⟩)

/-- Effect of the full pair loop of one ballot on the pair (a, b). -/
theorem getW_pairsFold (vote : Nat → String) (a b : Nat) (hab : a ≠ b) :
    ∀ (deps : List Nat) (g : Graph), deps.Nodup →
      (((pairsList deps).foldl (votePairStep vote) g).getW a b) =
        if a ∈ deps ∧ b ∈ deps then
          some ((g.getW a b).getD 0 + (if vote a = vote b then (1 : Int) else -1))
        else g.getW a b := by
  intro deps
  induction deps with
  | nil =>
    intro g _
    rw [if_neg]
    · rfl
    · rintro ⟨hc, _⟩
      exact List.not_mem_nil _ hc
  | cons x xs ih =>
    intro g hnd
    rw [List.nodup_cons] at hnd
    show ((((xs.map (fun y => (x, y))) ++ pairsList xs).foldl (votePairStep vote) g).getW a b) = _
    rw [List.foldl_append]
    rw [ih _ hnd.2, getW_voteMapFold vote x a b hab xs _ hnd.2 hnd.1]
    by_cases hseg : (x = a ∧ b ∈ xs) ∨ (x = b ∧ a ∈ xs)
    · have htail : ¬ (a ∈ xs ∧ b ∈ xs) := by
        rcases hseg with ⟨rfl, _⟩ | ⟨rfl, _⟩
        · rintro ⟨hc, _⟩
          exact hnd.1 hc
        · rintro ⟨_, hc⟩
          exact hnd.1 hc
      have hcons : a ∈ x :: xs ∧ b ∈ x :: xs := by
        rcases hseg with ⟨h1, hc⟩ | ⟨h1, hc⟩
        · exact ⟨by rw [← h1]; exact List.mem_cons_self x xs, List.mem_cons_of_mem x hc⟩
        · exact ⟨List.mem_cons_of_mem x hc, by rw [← h1]; exact List.mem_cons_self x xs⟩
      rw [if_neg htail, if_pos hseg, if_pos hcons]
    · by_cases htail : a ∈ xs ∧ b ∈ xs
      · have hcons : a ∈ x :: xs ∧ b ∈ x :: xs :=
          ⟨List.mem_cons_of_mem x htail.1, List.mem_cons_of_mem x htail.2⟩
        rw [if_pos htail, if_neg hseg, if_pos hcons]
      · rw [if_neg htail, if_neg hseg, if_neg]
        rintro ⟨ha, hb⟩
        rcases List.mem_cons.mp ha with rfl | ha'
        · rcases List.mem_cons.mp hb with rfl | hb'
          · exact hab rfl
          · exact hseg (Or.inl ⟨rfl, hb'⟩)
        · rcases List.mem_cons.mp hb with rfl | hb'
          · exact hseg (Or.inr ⟨rfl, ha'⟩)
          · exact htail ⟨ha', hb'⟩

/-- The signed contribution of ballot `v` to the pair (a, b). -/
def deltaOf (rows : List VotingRow) (a b v : Nat) : Int :=
  if voteOf rows v a = voteOf rows v b then 1 else -1

/-- Ballots of `vs` in which both `a` and `b` participate. -/
def commonOf (rows : List VotingRow) (a b : Nat) (vs : List Nat) : List Nat :=
  vs.filter (fun v => decide (a ∈ depsIn rows v ∧ b ∈ depsIn rows v))

/-- The running signed tally accumulated over the ballots of `vs`. -/
def tallyOf (rows : List VotingRow) (a b : Nat) (vs : List Nat) : Int :=
  ((commonOf rows a b vs).map (deltaOf rows a b)).sum

theorem getW_ballotStep (rows : List VotingRow) (g : Graph) (v a b : Nat) (hab : a ≠ b) :
    (ballotStep rows g v).getW a b =
      if a ∈ depsIn rows v ∧ b ∈ depsIn rows v then
        some ((g.getW a b).getD 0 + deltaOf rows a b v)
      else g.getW a b := by
  unfold ballotStep deltaOf
  rw [getW_pairsFold (voteOf rows v) a b hab _ g (depsIn_nodup rows v)]

theorem getW_ballotFold (rows : List VotingRow) (a b : Nat) (hab : a ≠ b) :
    ∀ (vs : List Nat) (g : Graph),
      ((vs.foldl (ballotStep rows) g).getW a b) =
        if commonOf rows a b vs = [] then g.getW a b
        else some ((g.getW a b).getD 0 + tallyOf rows a b vs) := by
  intro vs
  induction vs with
  | nil => intro g; simp [commonOf]
  | cons v vs ih =>
    intro g
    show ((vs.foldl (ballotStep rows) (ballotStep rows g v)).getW a b) = _
    rw [ih, getW_ballotStep rows g v a b hab]
    by_cases hv : a ∈ depsIn rows v ∧ b ∈ depsIn rows v
    · have hcons : commonOf rows a b (v :: vs) = v :: commonOf rows a b vs := by
        unfold commonOf
        rw [List.filter_cons_of_pos (by simp [hv])]
      have htal : tallyOf rows a b (v :: vs) = deltaOf rows a b v + tallyOf rows a b vs := by
        unfold tallyOf
        rw [hcons, List.map_cons, List.sum_cons]
      rw [if_pos hv, hcons, htal]
      rw [if_neg (List.cons_ne_nil v _)]
      by_cases hvs : commonOf rows a b vs = []
      · have ht0 : tallyOf rows a b vs = 0 := by
          unfold tallyOf
          rw [hvs]
          rfl
        rw [if_pos hvs, ht0, add_zero]
      · rw [if_neg hvs]
        simp only [Option.getD_some]
        rw [add_assoc]
    · have hcons : commonOf rows a b (v :: vs) = commonOf rows a b vs := by
        unfold commonOf
        rw [List.filter_cons_of_neg (by simp [hv])]
      have htal : tallyOf rows a b (v :: vs) = tallyOf rows a b vs := by
        unfold tallyOf
        rw [hcons]
      rw [if_neg hv, hcons, htal]

/-- Weight characterization of the finished voting graph: the edge between two
distinct legislators exists after the build exactly when they share a ballot, and
then carries the signed tally over all shared ballots. -/
theorem votingGraphOn_getW (rows : List VotingRow) (a b : Nat) (hab : a ≠ b) :
    (votingGraphOn emptyG rows).getW a b =
      if commonOf rows a b (ballotsOf rows) = [] then none
      else some (tallyOf rows a b (ballotsOf rows)) := by
  rw [votingGraphOn_eq, getW_ballotFold rows a b hab]
  have hbase : (Graph.mk (napply emptyG.nodes (votingEntries rows)) emptyG.edges).getW a b
      = none := rfl
  rw [hbase]
  by_cases hc : commonOf rows a b (ballotsOf rows) = []
  · rw [if_pos hc, if_pos hc]
  · rw [if_neg hc, if_neg hc]
    simp

/-- A successful membership build returns the pure build on the owned graph. -/
theorem frente_build_ok {df : FrenteDF} {g0 g : Graph}
    (h : FrenteNetwork.build_network df g0 = .ok g) : g = frenteGraphOn g0 df.rows := by
  simp only [FrenteNetwork.build_network] at h
  split at h
  · exact Except.noConfusion h
  · split at h
    · exact Except.noConfusion h
    · split at h
      · exact Except.noConfusion h
      · split at h
        · exact Except.noConfusion h
        · exact (Except.ok.inj h).symm

/-- A successful voting build returns the pure build on the owned graph. -/
theorem voting_build_ok {df : VotingDF} {g0 g : Graph}
    (h : VotingNetwork.build_network df g0 = .ok g) : g = votingGraphOn g0 df.rows := by
  simp only [VotingNetwork.build_network] at h
  split at h
  · exact Except.noConfusion h
  · split at h
    · exact Except.noConfusion h
    · split at h
      · exact Except.noConfusion h
      · split at h
        · exact Except.noConfusion h
        · split at h
          · exact Except.noConfusion h
          · exact (Except.ok.inj h).symm

/-- C3: node completeness.  For both policies, the node set of a successfully
built graph is exactly the set of distinct legislator ids occurring in the input
table: every id in the table appears as a node, no other node exists, and each id
carries exactly one node entry. -/
theorem build_nodes_complete :
    (∀ (df : FrenteDF) (g : Graph), FrenteNetwork.build_network df emptyG = .ok g →
      (∀ i : Nat, i ∈ g.nodes.map Prod.fst ↔ ∃ r ∈ df.rows, r.id_deputado = i) ∧
        (g.nodes.map Prod.fst).Nodup) ∧
    (∀ (df : VotingDF) (g : Graph), VotingNetwork.build_network df emptyG = .ok g →
      (∀ i : Nat, i ∈ g.nodes.map Prod.fst ↔ ∃ r ∈ df.rows, r.id_deputado = i) ∧
        (g.nodes.map Prod.fst).Nodup) := by
  constructor
  · intro df g hok
    obtain rfl := frente_build_ok hok
    constructor
    · intro i
      rw [frenteGraphOn_nodes, mem_keys_napply, keys_frenteEntries, mem_deputadosF]
      simp [emptyG]
    · rw [frenteGraphOn_nodes]
      exact keys_napply_nodup _ _ (by simp [emptyG])
  · intro df g hok
    obtain rfl := voting_build_ok hok
    constructor
    · intro i
      rw [votingGraphOn_nodes, mem_keys_napply, keys_votingEntries, mem_deputadosV]
      simp [emptyG]
    · rw [votingGraphOn_nodes]
      exact keys_napply_nodup _ _ (by simp [emptyG])

/-- C1: membership policy edge correctness.  After a successful membership build,
for any two distinct legislators present in the table, the edge between them
exists iff they share at least one front, and then its weight is exactly the
number of shared fronts; a pair sharing no front has no edge at all. -/
theorem frente_edge_iff_shared_fronts (df : FrenteDF) (g : Graph) (a b : Nat)
    (hab : a ≠ b) (ha : ∃ r ∈ df.rows, r.id_deputado = a)
    (hb : ∃ r ∈ df.rows, r.id_deputado = b)
    (hok : FrenteNetwork.build_network df emptyG = .ok g) :
    (g.has_edge a b = true ↔ (frentesOf df.rows a ∩ frentesOf df.rows b).Nonempty) ∧
    g.getW a b =
      (if 0 < pesoF df.rows a b then some ((pesoF df.rows a b : Int)) else none) := by
  obtain rfl := frente_build_ok hok
  have hW := frenteGraphOn_getW df.rows a b ha hb hab
  constructor
  · rw [has_edge_eq_isSome, hW]
    by_cases hp : 0 < pesoF df.rows a b
    · rw [if_pos hp]
      exact iff_of_true rfl (Finset.card_pos.mp hp)
    · rw [if_neg hp]
      exact iff_of_false (by simp) (fun hne => hp (Finset.card_pos.mpr hne))
  · exact hW

/-- C7: an empty table with the required columns present builds, for either
policy, without error and yields the empty graph. -/
theorem empty_table_empty_graph :
    (∀ cols : List String, (∀ c ∈ requiredFrenteCols, c ∈ cols) →
      FrenteNetwork.build_network ⟨cols, []⟩ emptyG = .ok emptyG) ∧
    (∀ cols : List String, (∀ c ∈ requiredVotingCols, c ∈ cols) →
      VotingNetwork.build_network ⟨cols, []⟩ emptyG = .ok emptyG) := by
  constructor
  · intro cols h
    have h1 : "id_deputado" ∈ cols := h _ (by simp [requiredFrenteCols])
    have h2 : "nome_deputado" ∈ cols := h _ (by simp [requiredFrenteCols])
    have h5 : "titulo" ∈ cols := h _ (by simp [requiredFrenteCols])
    simp only [FrenteNetwork.build_network]
    have hm : (["id_deputado", "nome_deputado"].filter
        (fun c => decide (c ∉ cols))) = [] := by
      simp [h1, h2]
    rw [hm]
    rw [if_neg (by simp)]
    rw [if_neg (by simp)]
    rw [if_neg (by simp)]
    rw [if_neg (by simp [h5])]
    rfl
  · intro cols h
    have h1 : "id_deputado" ∈ cols := h _ (by simp [requiredVotingCols])
    have h2 : "nome" ∈ cols := h _ (by simp [requiredVotingCols])
    have h5 : "id" ∈ cols := h _ (by simp [requiredVotingCols])
    simp only [VotingNetwork.build_network]
    have hm : (["id_deputado", "nome"].filter (fun c => decide (c ∉ cols))) = [] := by
      simp [h1, h2]
    rw [hm]
    rw [if_neg (by simp)]
    rw [if_neg (by simp)]
    rw [if_neg (by simp)]
    rw [if_neg (by simp [h5])]
    rw [if_neg (by simp)]
    rfl

/-- The vote of legislator `d` in ballot `v` when the table has at most one row
per (legislator, ballot) pair: the unique matching row's choice. -/
def rowVote (rows : List VotingRow) (v d : Nat) : String :=
  ((((ballotGroup rows v).filter (fun r => r.id_deputado == d)).head?).map
    (fun r => r.tipoVoto)).getD ""

theorem head?_eq_getLast? {α : Type} : ∀ {l : List α}, l.length ≤ 1 → l.head? = l.getLast? := by
  intro l h
  match l with
  | [] => rfl
  | [x] => rfl
  | x :: y :: t => simp at h

theorem rowVote_eq_voteOf {rows : List VotingRow} {v d : Nat}
    (hdup : ((rows.filter (fun r => r.id_deputado == d && r.id == v)).length ≤ 1)) :
    rowVote rows v d = voteOf rows v d := by
  unfold rowVote voteOf ballotGroup
  rw [List.filter_filter] at *
  rw [head?_eq_getLast? hdup]

theorem sum_signs {P : Nat → Prop} [DecidablePred P] :
    ∀ l : List Nat, ((l.map (fun v => if P v then (1 : Int) else -1)).sum) =
      ((l.filter (fun v => decide (P v))).length : Int) -
        ((l.filter (fun v => decide (¬ P v))).length : Int) := by
  intro l
  induction l with
  | nil => simp
  | cons x xs ih =>
    by_cases hx : P x
    · rw [List.map_cons, List.sum_cons, if_pos hx,
        List.filter_cons_of_pos (by simp [hx]), List.filter_cons_of_neg (by simp [hx]), ih]
      push_cast [List.length_cons]
      ring
    · rw [List.map_cons, List.sum_cons, if_neg hx,
        List.filter_cons_of_neg (by simp [hx]), List.filter_cons_of_pos (by simp [hx]), ih]
      push_cast [List.length_cons]
      ring

theorem mem_ballotsOf {v : Nat} (rows : List VotingRow) :
    v ∈ ballotsOf rows ↔ ∃ r ∈ rows, r.id = v := by
  unfold ballotsOf
  rw [List.mem_insertionSort, mem_dedupFA]
  simp [List.mem_map]

theorem dup_filter_le_one {rows : List VotingRow}
    (h : List.Pairwise (fun r1 r2 : VotingRow =>
      ¬(r1.id_deputado = r2.id_deputado ∧ r1.id = r2.id)) rows) (d v : Nat) :
    (rows.filter (fun r => r.id_deputado == d && r.id == v)).length ≤ 1 := by
  induction rows with
  | nil => simp
  | cons r rows ih =>
    rw [List.pairwise_cons] at h
    rw [List.filter_cons]
    by_cases hr : (r.id_deputado == d && r.id == v) = true
    · rw [if_pos hr]
      have hnil : (rows.filter (fun r => r.id_deputado == d && r.id == v)) = [] := by
        rw [List.filter_eq_nil_iff]
        intro r' hr' hc
        simp only [Bool.and_eq_true, beq_iff_eq] at hr hc
        exact h.1 r' hr' ⟨(hc.1.trans hr.1.symm).symm, (hc.2.trans hr.2.symm).symm⟩
      rw [hnil]
      simp
    · rw [if_neg hr]
      exact ih h.2

/-- C2: agreement policy edge correctness under the one-row-per-(legislator,
ballot) discipline.  After a successful voting build, two distinct legislators
share an edge iff they co-voted in some ballot, and the weight is the number of
shared ballots with equal vote choices minus the number with different choices
(zero tallies keep their edge). -/
theorem voting_edge_signed_tally (df : VotingDF) (g : Graph) (a b : Nat)
    (hdup : List.Pairwise (fun r1 r2 : VotingRow =>
      ¬(r1.id_deputado = r2.id_deputado ∧ r1.id = r2.id)) df.rows)
    (hab : a ≠ b)
    (hok : VotingNetwork.build_network df emptyG = .ok g) :
    (g.has_edge a b = true ↔ ∃ v, a ∈ depsIn df.rows v ∧ b ∈ depsIn df.rows v) ∧
    g.getW a b =
      (if commonOf df.rows a b (ballotsOf df.rows) = [] then none
       else some
        ((((commonOf df.rows a b (ballotsOf df.rows)).filter
            (fun v => decide (rowVote df.rows v a = rowVote df.rows v b))).length : Int) -
         (((commonOf df.rows a b (ballotsOf df.rows)).filter
            (fun v => decide (¬ rowVote df.rows v a = rowVote df.rows v b))).length : Int))) := by
  obtain rfl := voting_build_ok hok
  have hW := votingGraphOn_getW df.rows a b hab
  constructor
  · rw [has_edge_eq_isSome, hW]
    by_cases hc : commonOf df.rows a b (ballotsOf df.rows) = []
    · rw [if_pos hc]
      refine iff_of_false (by simp) ?_
      rintro ⟨v, hva, hvb⟩
      have hvmem : v ∈ ballotsOf df.rows := by
        rw [mem_ballotsOf]
        obtain ⟨r, hr, hrv, _⟩ := (mem_depsIn df.rows).mp hva
        exact ⟨r, hr, hrv⟩
      have : v ∈ commonOf df.rows a b (ballotsOf df.rows) := by
        unfold commonOf
        rw [List.mem_filter]
        exact ⟨hvmem, by simp [hva, hvb]⟩
      rw [hc] at this
      exact List.not_mem_nil v this
    · rw [if_neg hc]
      refine iff_of_true rfl ?_
      obtain ⟨v, hv⟩ := List.exists_mem_of_ne_nil _ hc
      unfold commonOf at hv
      rw [List.mem_filter] at hv
      have := of_decide_eq_true hv.2
      exact ⟨v, this⟩
  · rw [hW]
    by_cases hc : commonOf df.rows a b (ballotsOf df.rows) = []
    · rw [if_pos hc, if_pos hc]
    · rw [if_neg hc, if_neg hc]
      congr 1
      unfold tallyOf
      have hmap : (commonOf df.rows a b (ballotsOf df.rows)).map (deltaOf df.rows a b) =
          (commonOf df.rows a b (ballotsOf df.rows)).map
            (fun v => if rowVote df.rows v a = rowVote df.rows v b then (1 : Int) else -1) := by
        refine List.map_congr_left ?_
        intro v _
        unfold deltaOf
        rw [rowVote_eq_voteOf (dup_filter_le_one hdup a v),
          rowVote_eq_voteOf (dup_filter_le_one hdup b v)]
      rw [hmap]
      exact sum_signs _

/-- C9: duplicate rows for one (legislator, ballot) pair are tolerated: the build
succeeds whenever the required columns are present, and every edge weight is
computed from `voteOf`, which by definition reads only the last matching row of
the ballot group (`getLast?`), so earlier duplicate rows contribute nothing. -/
theorem voting_duplicate_last_row :
    (∀ df : VotingDF, (∀ c ∈ requiredVotingCols, c ∈ df.cols) →
      VotingNetwork.build_network df emptyG = .ok (votingGraphOn emptyG df.rows)) ∧
    (∀ (rows : List VotingRow) (a b : Nat), a ≠ b →
      (votingGraphOn emptyG rows).getW a b =
        (if commonOf rows a b (ballotsOf rows) = [] then none
         else some (tallyOf rows a b (ballotsOf rows)))) := by
  constructor
  · intro df h
    have h1 : "id_deputado" ∈ df.cols := h _ (by simp [requiredVotingCols])
    have h2 : "nome" ∈ df.cols := h _ (by simp [requiredVotingCols])
    have h3 : "siglaPartido" ∈ df.cols := h _ (by simp [requiredVotingCols])
    have h4 : "siglaUf" ∈ df.cols := h _ (by simp [requiredVotingCols])
    have h5 : "id" ∈ df.cols := h _ (by simp [requiredVotingCols])
    have h6 : "tipoVoto" ∈ df.cols := h _ (by simp [requiredVotingCols])
    simp only [VotingNetwork.build_network]
    have hm : (["id_deputado", "nome"].filter (fun c => decide (c ∉ df.cols))) = [] := by
      simp [h1, h2]
    rw [hm]
    rw [if_neg (by simp)]
    rw [if_neg (fun hc => hc.2 h3)]
    rw [if_neg (fun hc => hc.2 h4)]
    rw [if_neg (by simp [h5])]
    rw [if_neg (fun hc => hc.2 h6)]
  · intro rows a b hab
    exact votingGraphOn_getW rows a b hab

/-- C6 (amended): on a nonempty table, a missing required column makes either
build fail with `InvalidInputError` whose payload names only required columns
absent from the table (the first access that fails, in Python evaluation order). -/
theorem missing_column_error_amended :
    (∀ (df : FrenteDF) (g0 : Graph), df.rows ≠ [] →
      (∃ c ∈ requiredFrenteCols, c ∉ df.cols) →
      ∃ e : InvalidInputError, FrenteNetwork.build_network df g0 = .error e ∧
        e.missing ≠ [] ∧ ∀ c ∈ e.missing, c ∈ requiredFrenteCols ∧ c ∉ df.cols) ∧
    (∀ (df : VotingDF) (g0 : Graph), df.rows ≠ [] →
      (∃ c ∈ requiredVotingCols, c ∉ df.cols) →
      ∃ e : InvalidInputError, VotingNetwork.build_network df g0 = .error e ∧
        e.missing ≠ [] ∧ ∀ c ∈ e.missing, c ∈ requiredVotingCols ∧ c ∉ df.cols) := by
  constructor
  · intro df g0 hne hmiss
    simp only [FrenteNetwork.build_network]
    by_cases hm : (["id_deputado", "nome_deputado"].filter
        (fun c => decide (c ∉ df.cols))) = []
    · have h1 : "id_deputado" ∈ df.cols := by
        by_contra hc
        have : "id_deputado" ∈ (["id_deputado", "nome_deputado"].filter
            (fun c => decide (c ∉ df.cols))) := by
          rw [List.mem_filter]
          exact ⟨by simp, by simp [hc]⟩
        rw [hm] at this
        exact List.not_mem_nil _ this
      have h2 : "nome_deputado" ∈ df.cols := by
        by_contra hc
        have : "nome_deputado" ∈ (["id_deputado", "nome_deputado"].filter
            (fun c => decide (c ∉ df.cols))) := by
          rw [List.mem_filter]
          exact ⟨by simp, by simp [hc]⟩
        rw [hm] at this
        exact List.not_mem_nil _ this
      rw [hm, if_neg (by simp)]
      by_cases h3 : "siglaPartido_deputado" ∈ df.cols
      · rw [if_neg (fun hc => hc.2 h3)]
        by_cases h4 : "siglaUf_deputado" ∈ df.cols
        · rw [if_neg (fun hc => hc.2 h4)]
          by_cases h5 : "titulo" ∈ df.cols
          · exfalso
            obtain ⟨c, hcreq, hcmiss⟩ := hmiss
            simp only [requiredFrenteCols, List.mem_cons, List.not_mem_nil, or_false] at hcreq
            rcases hcreq with rfl | rfl | rfl | rfl | rfl
            · exact hcmiss h1
            · exact hcmiss h2
            · exact hcmiss h3
            · exact hcmiss h4
            · exact hcmiss h5
          · rw [if_pos h5]
            refine ⟨⟨["titulo"]⟩, rfl, by simp, ?_⟩
            intro c hc
            rw [List.mem_singleton] at hc
            subst hc
            exact ⟨by simp [requiredFrenteCols], h5⟩
        · rw [if_pos ⟨hne, h4⟩]
          refine ⟨⟨["siglaUf_deputado"]⟩, rfl, by simp, ?_⟩
          intro c hc
          rw [List.mem_singleton] at hc
          subst hc
          exact ⟨by simp [requiredFrenteCols], h4⟩
      · rw [if_pos ⟨hne, h3⟩]
        refine ⟨⟨["siglaPartido_deputado"]⟩, rfl, by simp, ?_⟩
        intro c hc
        rw [List.mem_singleton] at hc
        subst hc
        exact ⟨by simp [requiredFrenteCols], h3⟩
    · rw [if_pos hm]
      refine ⟨⟨_⟩, rfl, hm, ?_⟩
      intro c hc
      rw [List.mem_filter] at hc
      have hc2 := of_decide_eq_true hc.2
      rcases List.mem_cons.mp hc.1 with rfl | hc1
      · exact ⟨by simp [requiredFrenteCols], hc2⟩
      · rw [List.mem_singleton] at hc1
        subst hc1
        exact ⟨by simp [requiredFrenteCols], hc2⟩
  · intro df g0 hne hmiss
    simp only [VotingNetwork.build_network]
    by_cases hm : (["id_deputado", "nome"].filter (fun c => decide (c ∉ df.cols))) = []
    · have h1 : "id_deputado" ∈ df.cols := by
        by_contra hc
        have : "id_deputado" ∈ (["id_deputado", "nome"].filter
            (fun c => decide (c ∉ df.cols))) := by
          rw [List.mem_filter]
          exact ⟨by simp, by simp [hc]⟩
        rw [hm] at this
        exact List.not_mem_nil _ this
      have h2 : "nome" ∈ df.cols := by
        by_contra hc
        have : "nome" ∈ (["id_deputado", "nome"].filter
            (fun c => decide (c ∉ df.cols))) := by
          rw [List.mem_filter]
          exact ⟨by simp, by simp [hc]⟩
        rw [hm] at this
        exact List.not_mem_nil _ this
      rw [hm, if_neg (by simp)]
      by_cases h3 : "siglaPartido" ∈ df.cols
      · rw [if_neg (fun hc => hc.2 h3)]
        by_cases h4 : "siglaUf" ∈ df.cols
        · rw [if_neg (fun hc => hc.2 h4)]
          by_cases h5 : "id" ∈ df.cols
          · rw [if_neg (by simp [h5])]
            by_cases h6 : "tipoVoto" ∈ df.cols
            · exfalso
              obtain ⟨c, hcreq, hcmiss⟩ := hmiss
              simp only [requiredVotingCols, List.mem_cons, List.not_mem_nil, or_false] at hcreq
              rcases hcreq with rfl | rfl | rfl | rfl | rfl | rfl
              · exact hcmiss h1
              · exact hcmiss h2
              · exact hcmiss h3
              · exact hcmiss h4
              · exact hcmiss h5
              · exact hcmiss h6
            · rw [if_pos ⟨hne, h6⟩]
              refine ⟨⟨["tipoVoto"]⟩, rfl, by simp, ?_⟩
              intro c hc
              rw [List.mem_singleton] at hc
              subst hc
              exact ⟨by simp [requiredVotingCols], h6⟩
          · rw [if_pos h5]
            refine ⟨⟨["id"]⟩, rfl, by simp, ?_⟩
            intro c hc
            rw [List.mem_singleton] at hc
            subst hc
            exact ⟨by simp [requiredVotingCols], h5⟩
        · rw [if_pos ⟨hne, h4⟩]
          refine ⟨⟨["siglaUf"]⟩, rfl, by simp, ?_⟩
          intro c hc
          rw [List.mem_singleton] at hc
          subst hc
          exact ⟨by simp [requiredVotingCols], h4⟩
      · rw [if_pos ⟨hne, h3⟩]
        refine ⟨⟨["siglaPartido"]⟩, rfl, by simp, ?_⟩
        intro c hc
        rw [List.mem_singleton] at hc
        subst hc
        exact ⟨by simp [requiredVotingCols], h3⟩
    · rw [if_pos hm]
      refine ⟨⟨_⟩, rfl, hm, ?_⟩
      intro c hc
      rw [List.mem_filter] at hc
      have hc2 := of_decide_eq_true hc.2
      rcases List.mem_cons.mp hc.1 with rfl | hc1
      · exact ⟨by simp [requiredVotingCols], hc2⟩
      · rw [List.mem_singleton] at hc1
        subst hc1
        exact ⟨by simp [requiredVotingCols], hc2⟩

/-- Each entry of the edge list covers a distinct unordered pair. -/
def edgeKeysOK (es : List Edge) : Prop :=
  List.Pairwise (fun e f : Edge => ¬ sameU e.1 e.2.1 f.1 f.2.1) es

/-- No entry of the edge list is a self-loop. -/
def edgesProper (es : List Edge) : Prop := ∀ e ∈ es, e.1 ≠ e.2.1

theorem mem_addEdgeL_keys {a b : Nat} {w : Int} :
    ∀ {es : List Edge} {f : Edge}, f ∈ addEdgeL a b w es →
      sameU f.1 f.2.1 a b ∨ ∃ e ∈ es, f.1 = e.1 ∧ f.2.1 = e.2.1 := by
  intro es
  induction es with
  | nil =>
    intro f hf
    rw [show addEdgeL a b w [] = [(a, b, w)] from rfl, List.mem_singleton] at hf
    subst hf
    exact Or.inl (sameU_refl a b)
  | cons e es ih =>
    intro f hf
    cases hM : isEdge a b e with
    | false =>
      rw [show addEdgeL a b w (e :: es) = e :: addEdgeL a b w es from by simp [addEdgeL, hM]] at hf
      rcases List.mem_cons.mp hf with rfl | hf'
      · exact Or.inr ⟨f, List.mem_cons_self f es, rfl, rfl⟩
      · rcases ih hf' with h | ⟨e', he', h1, h2⟩
        · exact Or.inl h
        · exact Or.inr ⟨e', List.mem_cons_of_mem e he', h1, h2⟩
    | true =>
      rw [show addEdgeL a b w (e :: es) = (e.1, e.2.1, w) :: es from by simp [addEdgeL, hM]] at hf
      rcases List.mem_cons.mp hf with rfl | hf'
      · exact Or.inr ⟨e, List.mem_cons_self e es, rfl, rfl⟩
      · exact Or.inr ⟨f, List.mem_cons_of_mem e hf', rfl, rfl⟩

theorem mem_incEdgeL_keys {a b : Nat} {d : Int} :
    ∀ {es : List Edge} {f : Edge}, f ∈ incEdgeL a b d es →
      ∃ e ∈ es, f.1 = e.1 ∧ f.2.1 = e.2.1 := by
  intro es
  induction es with
  | nil =>
    intro f hf
    exact absurd hf (List.not_mem_nil f)
  | cons e es ih =>
    intro f hf
    cases hM : isEdge a b e with
    | false =>
      rw [show incEdgeL a b d (e :: es) = e :: incEdgeL a b d es from by simp [incEdgeL, hM]] at hf
      rcases List.mem_cons.mp hf with rfl | hf'
      · exact ⟨f, List.mem_cons_self f es, rfl, rfl⟩
      · obtain ⟨e', he', h1, h2⟩ := ih hf'
        exact ⟨e', List.mem_cons_of_mem e he', h1, h2⟩
    | true =>
      rw [show incEdgeL a b d (e :: es) = (e.1, e.2.1, e.2.2 + d) :: es from
        by simp [incEdgeL, hM]] at hf
      rcases List.mem_cons.mp hf with rfl | hf'
      · exact ⟨e, List.mem_cons_self e es, rfl, rfl⟩
      · exact ⟨f, List.mem_cons_of_mem e hf', rfl, rfl⟩

theorem sameU_symm {x y a b : Nat} (h : sameU x y a b) : sameU a b x y := by
  rcases h with ⟨h1, h2⟩ | ⟨h1, h2⟩
  · exact Or.inl ⟨h1.symm, h2.symm⟩
  · exact Or.inr ⟨h2.symm, h1.symm⟩

theorem sameU_key_congr {x1 x2 y1 y2 a b : Nat} (h1 : x1 = y1) (h2 : x2 = y2) :
    sameU a b x1 x2 ↔ sameU a b y1 y2 := by
  rw [h1, h2]

theorem keysOK_addEdgeL {a b : Nat} {w : Int} :
    ∀ {es : List Edge}, edgeKeysOK es → edgeKeysOK (addEdgeL a b w es) := by
  intro es
  induction es with
  | nil =>
    intro _
    exact List.pairwise_singleton _ _
  | cons e es ih =>
    intro h
    rw [edgeKeysOK, List.pairwise_cons] at h
    cases hM : isEdge a b e with
    | true =>
      rw [edgeKeysOK, show addEdgeL a b w (e :: es) = (e.1, e.2.1, w) :: es from
        by simp [addEdgeL, hM], List.pairwise_cons]
      exact ⟨fun f hf => h.1 f hf, h.2⟩
    | false =>
      rw [edgeKeysOK, show addEdgeL a b w (e :: es) = e :: addEdgeL a b w es from
        by simp [addEdgeL, hM], List.pairwise_cons]
      refine ⟨?_, ih h.2⟩
      intro f hf
      rcases mem_addEdgeL_keys hf with hk | ⟨e', he', h1, h2⟩
      · intro hc
        have : sameU e.1 e.2.1 a b := sameU_trans (sameU_symm hc) hk
        rw [isEdge_true_iff.mpr this] at hM
        exact Bool.true_eq_false.mp hM
      · rw [sameU_key_congr h1 h2]
        exact h.1 e' he'

theorem keysOK_incEdgeL {a b : Nat} {d : Int} :
    ∀ {es : List Edge}, edgeKeysOK es → edgeKeysOK (incEdgeL a b d es) := by
  intro es
  induction es with
  | nil =>
    intro _
    exact List.Pairwise.nil
  | cons e es ih =>
    intro h
    rw [edgeKeysOK, List.pairwise_cons] at h
    cases hM : isEdge a b e with
    | true =>
      rw [edgeKeysOK, show incEdgeL a b d (e :: es) = (e.1, e.2.1, e.2.2 + d) :: es from
        by simp [incEdgeL, hM], List.pairwise_cons]
      exact ⟨fun f hf => h.1 f hf, h.2⟩
    | false =>
      rw [edgeKeysOK, show incEdgeL a b d (e :: es) = e :: incEdgeL a b d es from
        by simp [incEdgeL, hM], List.pairwise_cons]
      refine ⟨?_, ih h.2⟩
      intro f hf
      obtain ⟨e', he', h1, h2⟩ := mem_incEdgeL_keys hf
      rw [sameU_key_congr h1 h2]
      exact h.1 e' he'

theorem proper_addEdgeL {a b : Nat} {w : Int} (hab : a ≠ b) {es : List Edge}
    (h : edgesProper es) : edgesProper (addEdgeL a b w es) := by
  intro f hf
  rcases mem_addEdgeL_keys hf with hk | ⟨e', he', h1, h2⟩
  · rcases hk with ⟨h1, h2⟩ | ⟨h1, h2⟩
    · rw [h1, h2]
      exact hab
    · rw [h1, h2]
      exact fun hc => hab hc.symm
  · rw [h1, h2]
    exact h e' he'

theorem proper_incEdgeL {a b : Nat} {d : Int} {es : List Edge}
    (h : edgesProper es) : edgesProper (incEdgeL a b d es) := by
  intro f hf
  obtain ⟨e', he', h1, h2⟩ := mem_incEdgeL_keys hf
  rw [h1, h2]
  exact h e' he'

/-- The simple-graph invariant carried through the edge phase. -/
def SimpleInv (g : Graph) : Prop := edgeKeysOK g.edges ∧ edgesProper g.edges

theorem simpleInv_frenteEdgeStep {rows : List FrenteRow} {g : Graph} {p : Nat × Nat}
    (hp : p.1 ≠ p.2) (h : SimpleInv g) : SimpleInv (frenteEdgeStep rows g p) := by
  unfold frenteEdgeStep
  by_cases hw : 0 < pesoF rows p.1 p.2
  · simp only [hw, if_true]
    exact ⟨keysOK_addEdgeL h.1, proper_addEdgeL hp h.2⟩
  · simp only [hw, if_false]
    exact h

theorem simpleInv_votePairStep {vote : Nat → String} {g : Graph} {p : Nat × Nat}
    (hp : p.1 ≠ p.2) (h : SimpleInv g) : SimpleInv (votePairStep vote g p) := by
  unfold votePairStep
  by_cases hh : g.has_edge p.1 p.2 = true
  · simp only [hh, if_true]
    exact ⟨keysOK_incEdgeL h.1, proper_incEdgeL h.2⟩
  · simp only [hh, if_false]
    exact ⟨keysOK_incEdgeL (keysOK_addEdgeL h.1),
      proper_incEdgeL (proper_addEdgeL hp h.2)⟩

theorem simpleInv_ballotStep {rows : List VotingRow} {g : Graph} {v : Nat}
    (h : SimpleInv g) : SimpleInv (ballotStep rows g v) := by
  unfold ballotStep
  refine foldl_preserve SimpleInv _ g ?_ h
  intro p hp g' hg'
  exact simpleInv_votePairStep (pairsList_distinct (depsIn_nodup rows v) p hp) hg'

theorem simpleInv_votingGraphOn (rows : List VotingRow) :
    SimpleInv (votingGraphOn emptyG rows) := by
  rw [votingGraphOn_eq]
  refine foldl_preserve SimpleInv _ _ ?_ ?_
  · intro v _ g' hg'
    exact simpleInv_ballotStep hg'
  · exact ⟨List.Pairwise.nil, fun e he => absurd he (List.not_mem_nil e)⟩

theorem deputadosF_nodup_of_consistent {rows : List FrenteRow}
    (hcons : ∀ r1 ∈ rows, ∀ r2 ∈ rows,
      r1.id_deputado = r2.id_deputado → r1.nome_deputado = r2.nome_deputado) :
    (deputadosF rows).Nodup := by
  unfold deputadosF
  refine List.Nodup.map_on ?_ (dedupFA_nodup _ [])
  intro p hp q hq he
  obtain ⟨hp1, _⟩ := (mem_dedupFA _ _).mp hp
  obtain ⟨hq1, _⟩ := (mem_dedupFA _ _).mp hq
  obtain ⟨r1, hr1, hpr⟩ := List.mem_map.mp hp1
  obtain ⟨r2, hr2, hqr⟩ := List.mem_map.mp hq1
  have hid : r1.id_deputado = r2.id_deputado := by
    have e1 : r1.id_deputado = p.1 := congrArg Prod.fst hpr
    have e2 : r2.id_deputado = q.1 := congrArg Prod.fst hqr
    rw [e1, e2, he]
  have hnm : r1.nome_deputado = r2.nome_deputado := hcons r1 hr1 r2 hr2 hid
  rw [← hpr, ← hqr, hid, hnm]

theorem simpleInv_frenteGraphOn {rows : List FrenteRow}
    (hnd : (deputadosF rows).Nodup) : SimpleInv (frenteGraphOn emptyG rows) := by
  rw [frenteGraphOn_eq]
  refine foldl_preserve SimpleInv _ _ ?_ ?_
  · intro p hp g' hg'
    exact simpleInv_frenteEdgeStep (pairsList_distinct hnd p hp) hg'
  · exact ⟨List.Pairwise.nil, fun e he => absurd he (List.not_mem_nil e)⟩

/-- C5 (amended): the voting build never creates a self-loop and stores each
unordered pair at most once; the membership build does the same provided every
legislator id carries a single name in the table (with two distinct names for one
id the duplicated id meets itself in the pair enumeration and a self-loop
appears, see the counterexample). -/
theorem edges_simple_amended :
    (∀ (df : VotingDF) (g : Graph), VotingNetwork.build_network df emptyG = .ok g →
      (∀ e ∈ g.edges, e.1 ≠ e.2.1) ∧
        List.Pairwise (fun e f : Edge => ¬ sameU e.1 e.2.1 f.1 f.2.1) g.edges) ∧
    (∀ (df : FrenteDF) (g : Graph),
      (∀ r1 ∈ df.rows, ∀ r2 ∈ df.rows,
        r1.id_deputado = r2.id_deputado → r1.nome_deputado = r2.nome_deputado) →
      FrenteNetwork.build_network df emptyG = .ok g →
      (∀ e ∈ g.edges, e.1 ≠ e.2.1) ∧
        List.Pairwise (fun e f : Edge => ¬ sameU e.1 e.2.1 f.1 f.2.1) g.edges) := by
  constructor
  · intro df g hok
    obtain rfl := voting_build_ok hok
    obtain ⟨h1, h2⟩ := simpleInv_votingGraphOn df.rows
    exact ⟨h2, h1⟩
  · intro df g hcons hok
    obtain rfl := frente_build_ok hok
    obtain ⟨h1, h2⟩ := simpleInv_frenteGraphOn (deputadosF_nodup_of_consistent hcons)
    exact ⟨h2, h1⟩

/-- Input on which the membership builder violates the no-self-loop claim: one
legislator id listed under two distinct name spellings. -/
def cexFRows : List FrenteRow :=
  [⟨1, "A", "PT", "SP", "F1"⟩, ⟨1, "B", "PT", "SP", "F1"⟩]

/-- C5 counterexample: on `cexFRows` the build succeeds and produces an edge
whose two endpoints are the same legislator id 1 — a self-loop. -/
theorem frente_self_loop_cex :
    FrenteNetwork.build_network ⟨requiredFrenteCols, cexFRows⟩ emptyG =
      .ok (frenteGraphOn emptyG cexFRows) ∧
    (frenteGraphOn emptyG cexFRows).has_edge 1 1 = true := by
  constructor
  · decide
  · decide

/-- Witness for the amended C5 theorem at concrete inputs. -/
theorem edges_simple_amended_witness :
    ((∀ e ∈ (votingGraphOn emptyG exVRows).edges, e.1 ≠ e.2.1) ∧
      List.Pairwise (fun e f : Edge => ¬ sameU e.1 e.2.1 f.1 f.2.1)
        (votingGraphOn emptyG exVRows).edges) ∧
    ((∀ e ∈ (frenteGraphOn emptyG exRows).edges, e.1 ≠ e.2.1) ∧
      List.Pairwise (fun e f : Edge => ¬ sameU e.1 e.2.1 f.1 f.2.1)
        (frenteGraphOn emptyG exRows).edges) := by
  have hok1 : VotingNetwork.build_network ⟨requiredVotingCols, exVRows⟩ emptyG =
      Except.ok (votingGraphOn emptyG exVRows) := by decide
  have hok2 : FrenteNetwork.build_network ⟨requiredFrenteCols, exRows⟩ emptyG =
      Except.ok (frenteGraphOn emptyG exRows) := by decide
  have hcons : ∀ r1 ∈ exRows, ∀ r2 ∈ exRows,
      r1.id_deputado = r2.id_deputado → r1.nome_deputado = r2.nome_deputado := by decide
  exact ⟨edges_simple_amended.1 ⟨requiredVotingCols, exVRows⟩ _ hok1,
    edges_simple_amended.2 ⟨requiredFrenteCols, exRows⟩ _ hcons hok2⟩

/-- Witness for C1 on the end-to-end scenario: legislators 1 and 2 share one
front, so the edge exists with weight 1. -/
theorem frente_edge_iff_shared_fronts_witness :
    ((frenteGraphOn emptyG exRows).has_edge 1 2 = true ↔
      (frentesOf exRows 1 ∩ frentesOf exRows 2).Nonempty) ∧
    (frenteGraphOn emptyG exRows).getW 1 2 =
      (if 0 < pesoF exRows 1 2 then some ((pesoF exRows 1 2 : Int)) else none) := by
  have hok : FrenteNetwork.build_network ⟨requiredFrenteCols, exRows⟩ emptyG =
      Except.ok (frenteGraphOn emptyG exRows) := by decide
  exact frente_edge_iff_shared_fronts ⟨requiredFrenteCols, exRows⟩ _ 1 2 (by decide)
    (by decide) (by decide) hok

/-- Witness for C2 on the agree-then-disagree scenario: the tally cancels to
zero and the edge still exists. -/
theorem voting_edge_signed_tally_witness :
    (((votingGraphOn emptyG exVRows).has_edge 1 2 = true) ↔
      ∃ v, 1 ∈ depsIn exVRows v ∧ 2 ∈ depsIn exVRows v) ∧
    (votingGraphOn emptyG exVRows).getW 1 2 =
      (if commonOf exVRows 1 2 (ballotsOf exVRows) = [] then none
       else some
        ((((commonOf exVRows 1 2 (ballotsOf exVRows)).filter
            (fun v => decide (rowVote exVRows v 1 = rowVote exVRows v 2))).length : Int) -
         (((commonOf exVRows 1 2 (ballotsOf exVRows)).filter
            (fun v => decide (¬ rowVote exVRows v 1 = rowVote exVRows v 2))).length : Int))) := by
  have hok : VotingNetwork.build_network ⟨requiredVotingCols, exVRows⟩ emptyG =
      Except.ok (votingGraphOn emptyG exVRows) := by decide
  exact voting_edge_signed_tally ⟨requiredVotingCols, exVRows⟩ _ 1 2 (by decide)
    (by decide) hok

/-- Witness for C3 at the two scenario tables. -/
theorem build_nodes_complete_witness :
    ((∀ i : Nat, i ∈ (frenteGraphOn emptyG exRows).nodes.map Prod.fst ↔
        ∃ r ∈ exRows, r.id_deputado = i) ∧
      ((frenteGraphOn emptyG exRows).nodes.map Prod.fst).Nodup) ∧
    ((∀ i : Nat, i ∈ (votingGraphOn emptyG exVRows).nodes.map Prod.fst ↔
        ∃ r ∈ exVRows, r.id_deputado = i) ∧
      ((votingGraphOn emptyG exVRows).nodes.map Prod.fst).Nodup) := by
  have hok1 : FrenteNetwork.build_network ⟨requiredFrenteCols, exRows⟩ emptyG =
      Except.ok (frenteGraphOn emptyG exRows) := by decide
  have hok2 : VotingNetwork.build_network ⟨requiredVotingCols, exVRows⟩ emptyG =
      Except.ok (votingGraphOn emptyG exVRows) := by decide
  exact ⟨build_nodes_complete.1 ⟨requiredFrenteCols, exRows⟩ _ hok1,
    build_nodes_complete.2 ⟨requiredVotingCols, exVRows⟩ _ hok2⟩

/-- A nonempty membership table missing `titulo`. -/
def c6FDF : FrenteDF :=
  ⟨["id_deputado", "nome_deputado", "siglaPartido_deputado", "siglaUf_deputado"],
   [⟨1, "A", "PT", "SP", "F1"⟩]⟩

/-- A nonempty voting table missing `siglaUf`. -/
def c6VDF : VotingDF :=
  ⟨["id_deputado", "nome", "siglaPartido", "id", "tipoVoto"],
   [⟨1, "A", "PT", "SP", 1, "Sim"⟩]⟩

/-- Witness for the amended C6 theorem at concrete nonempty tables. -/
theorem missing_column_error_amended_witness :
    (∃ e : InvalidInputError, FrenteNetwork.build_network c6FDF emptyG = .error e ∧
      e.missing ≠ [] ∧ ∀ c ∈ e.missing, c ∈ requiredFrenteCols ∧ c ∉ c6FDF.cols) ∧
    (∃ e : InvalidInputError, VotingNetwork.build_network c6VDF emptyG = .error e ∧
      e.missing ≠ [] ∧ ∀ c ∈ e.missing, c ∈ requiredVotingCols ∧ c ∉ c6VDF.cols) :=
  ⟨missing_column_error_amended.1 c6FDF emptyG (by decide) (by decide),
   missing_column_error_amended.2 c6VDF emptyG (by decide) (by decide)⟩

/-- Witness for C7: the empty tables with exactly the required columns. -/
theorem empty_table_empty_graph_witness :
    FrenteNetwork.build_network ⟨requiredFrenteCols, []⟩ emptyG = .ok emptyG ∧
    VotingNetwork.build_network ⟨requiredVotingCols, []⟩ emptyG = .ok emptyG :=
  ⟨empty_table_empty_graph.1 requiredFrenteCols (fun _ hc => hc),
   empty_table_empty_graph.2 requiredVotingCols (fun _ hc => hc)⟩

/-- A ballot in which legislator 1 votes twice: first Sim, then Não. -/
def c9Rows : List VotingRow :=
  [⟨1, "A", "PT", "SP", 1, "Sim"⟩, ⟨1, "A", "PT", "SP", 1, "Não"⟩,
   ⟨2, "B", "MDB", "RJ", 1, "Não"⟩]

/-- Witness for C9 at a table with a duplicated (legislator, ballot) pair: the
build succeeds and the weight formula applies (only the last duplicate counts). -/
theorem voting_duplicate_last_row_witness :
    VotingNetwork.build_network ⟨requiredVotingCols, c9Rows⟩ emptyG =
      .ok (votingGraphOn emptyG c9Rows) ∧
    (votingGraphOn emptyG c9Rows).getW 1 2 =
      (if commonOf c9Rows 1 2 (ballotsOf c9Rows) = [] then none
       else some (tallyOf c9Rows 1 2 (ballotsOf c9Rows))) :=
  ⟨voting_duplicate_last_row.1 ⟨requiredVotingCols, c9Rows⟩ (by decide),
   voting_duplicate_last_row.2 c9Rows 1 2 (by decide)⟩

/-- An empty voting table whose columns lack `tipoVoto`. -/
def c6CexVDF : VotingDF :=
  ⟨["id_deputado", "nome", "siglaPartido", "siglaUf", "id"], []⟩

/-- C6 counterexample: on an empty table the `tipoVoto` column is only touched
inside the per-ballot loop, which never runs, so the build succeeds even though a
required column is absent — no `InvalidInputError` is raised. -/
theorem empty_missing_column_ok_cex :
    ("tipoVoto" ∈ requiredVotingCols ∧ "tipoVoto" ∉ c6CexVDF.cols) ∧
    VotingNetwork.build_network c6CexVDF emptyG = .ok emptyG := by
  constructor
  · constructor
    · decide
    · decide
  · decide

theorem find?_nodeEntries {ρ : Type} (idOf : ρ → Nat) (nm pt uf : ρ → String)
    (rows : List ρ) (i : Nat) (r0 : ρ)
    (hfind : rows.find? (fun r => idOf r == i) = some r0) :
    (nodeEntries idOf nm pt uf rows).find? (fun p => p.1 == i) =
      some (i, ⟨nm r0, pt r0, uf r0⟩) := by
  have hid : idOf r0 = i := by
    have h := List.find?_some hfind
    simpa using h
  have hattr : ∀ f : ρ → String, firstAttr idOf f rows (idOf r0) = f r0 := by
    intro f
    unfold firstAttr
    rw [hid, hfind]
    rfl
  unfold nodeEntries
  rw [List.find?_map]
  rw [find?_dedupFA _ _ _ (fun s hs => absurd hs (List.not_mem_nil s))]
  rw [List.find?_map]
  have hfind2 : rows.find? (((fun q : Nat × NodeData => q.1 == i) ∘
      (fun p : Nat × String =>
        ((p.1, ⟨p.2, firstAttr idOf pt rows p.1, firstAttr idOf uf rows p.1⟩) :
          Nat × NodeData))) ∘
      (fun r : ρ => (idOf r, nm r))) = some r0 := hfind
  rw [hfind2]
  have hval : ((fun p : Nat × String =>
      ((p.1, ⟨p.2, firstAttr idOf pt rows p.1, firstAttr idOf uf rows p.1⟩) :
        Nat × NodeData)) ((fun r : ρ => (idOf r, nm r)) r0)) =
      ((i, ⟨nm r0, pt r0, uf r0⟩) : Nat × NodeData) := by
    show ((idOf r0, ⟨nm r0, firstAttr idOf pt rows (idOf r0),
      firstAttr idOf uf rows (idOf r0)⟩) : Nat × NodeData) = _
    rw [hattr pt, hattr uf, hid]
  exact congrArg some hval

theorem filter_key_length_one {es : List (Nat × NodeData)} {i : Nat}
    (hnd : (es.map Prod.fst).Nodup) (hmem : i ∈ es.map Prod.fst) :
    (es.filter (fun p => p.1 == i)).length = 1 := by
  have h1 : (es.map Prod.fst).count i = es.countP (fun p => p.1 == i) := by
    rw [List.count, List.countP_map]
    rfl
  rw [← List.countP_eq_length_filter, ← h1]
  exact List.count_eq_one_of_mem hnd hmem

theorem deputadosV_nodup_of_consistent {rows : List VotingRow}
    (hcons : ∀ r1 ∈ rows, ∀ r2 ∈ rows,
      r1.id_deputado = r2.id_deputado → r1.nome = r2.nome) :
    (deputadosV rows).Nodup := by
  unfold deputadosV
  refine List.Nodup.map_on ?_ (dedupFA_nodup _ [])
  intro p hp q hq he
  obtain ⟨hp1, _⟩ := (mem_dedupFA _ _).mp hp
  obtain ⟨hq1, _⟩ := (mem_dedupFA _ _).mp hq
  obtain ⟨r1, hr1, hpr⟩ := List.mem_map.mp hp1
  obtain ⟨r2, hr2, hqr⟩ := List.mem_map.mp hq1
  have hid : r1.id_deputado = r2.id_deputado := by
    have e1 : r1.id_deputado = p.1 := congrArg Prod.fst hpr
    have e2 : r2.id_deputado = q.1 := congrArg Prod.fst hqr
    rw [e1, e2, he]
  have hnm : r1.nome = r2.nome := hcons r1 hr1 r2 hr2 hid
  rw [← hpr, ← hqr, hid, hnm]

/-- C8 (amended): after a successful build with consistent naming (one name per
legislator id), every id present in the table owns exactly one node, and its
name, party and state all come from the first row observed for that id.  With
inconsistent names the node is still unique and party/state still come from the
first row, but the name is overwritten by the last distinct (id, name) pair —
see the counterexample. -/
theorem node_attrs_first_row_amended :
    (∀ (df : FrenteDF) (g : Graph),
      (∀ r1 ∈ df.rows, ∀ r2 ∈ df.rows,
        r1.id_deputado = r2.id_deputado → r1.nome_deputado = r2.nome_deputado) →
      FrenteNetwork.build_network df emptyG = .ok g →
      ∀ (i : Nat) (r0 : FrenteRow),
        df.rows.find? (fun r => r.id_deputado == i) = some r0 →
        (g.nodes.filter (fun p => p.1 == i)).length = 1 ∧
        g.nodes.find? (fun p => p.1 == i) =
          some (i, ⟨r0.nome_deputado, r0.siglaPartido_deputado, r0.siglaUf_deputado⟩)) ∧
    (∀ (df : VotingDF) (g : Graph),
      (∀ r1 ∈ df.rows, ∀ r2 ∈ df.rows,
        r1.id_deputado = r2.id_deputado → r1.nome = r2.nome) →
      VotingNetwork.build_network df emptyG = .ok g →
      ∀ (i : Nat) (r0 : VotingRow),
        df.rows.find? (fun r => r.id_deputado == i) = some r0 →
        (g.nodes.filter (fun p => p.1 == i)).length = 1 ∧
        g.nodes.find? (fun p => p.1 == i) =
          some (i, ⟨r0.nome, r0.siglaPartido, r0.siglaUf⟩)) := by
  constructor
  · intro df g hcons hok i r0 hfind
    obtain rfl := frente_build_ok hok
    have hkeys : ((frenteEntries df.rows).map Prod.fst).Nodup := by
      rw [keys_frenteEntries]
      exact deputadosF_nodup_of_consistent hcons
    have hnodes : (frenteGraphOn emptyG df.rows).nodes = frenteEntries df.rows := by
      rw [frenteGraphOn_nodes]
      rw [show emptyG.nodes = ([] : List (Nat × NodeData)) from rfl]
      rw [napply_fresh _ _ hkeys (fun k _ hc => absurd hc (by simp))]
      rfl
    refine ⟨?_, ?_⟩
    · rw [hnodes]
      refine filter_key_length_one hkeys ?_
      rw [keys_frenteEntries, mem_deputadosF]
      have hid : r0.id_deputado = i := by
        have h := List.find?_some hfind
        simpa using h
      exact ⟨r0, List.mem_of_find?_eq_some hfind, hid⟩
    · rw [hnodes]
      exact find?_nodeEntries (fun r => r.id_deputado) (fun r => r.nome_deputado)
        (fun r => r.siglaPartido_deputado) (fun r => r.siglaUf_deputado) df.rows i r0 hfind
  · intro df g hcons hok i r0 hfind
    obtain rfl := voting_build_ok hok
    have hkeys : ((votingEntries df.rows).map Prod.fst).Nodup := by
      rw [keys_votingEntries]
      exact deputadosV_nodup_of_consistent hcons
    have hnodes : (votingGraphOn emptyG df.rows).nodes = votingEntries df.rows := by
      rw [votingGraphOn_nodes]
      rw [show emptyG.nodes = ([] : List (Nat × NodeData)) from rfl]
      rw [napply_fresh _ _ hkeys (fun k _ hc => absurd hc (by simp))]
      rfl
    refine ⟨?_, ?_⟩
    · rw [hnodes]
      refine filter_key_length_one hkeys ?_
      rw [keys_votingEntries, mem_deputadosV]
      have hid : r0.id_deputado = i := by
        have h := List.find?_some hfind
        simpa using h
      exact ⟨r0, List.mem_of_find?_eq_some hfind, hid⟩
    · rw [hnodes]
      exact find?_nodeEntries (fun r => r.id_deputado) (fun r => r.nome)
        (fun r => r.siglaPartido) (fun r => r.siglaUf) df.rows i r0 hfind

/-- C8 counterexample: with two distinct names for id 1, the first row for id 1
has name A, but the finished node carries name B (the last distinct pair), so the
node attributes are not taken from the first row. -/
theorem node_attr_last_name_cex :
    cexFRows.find? (fun r => r.id_deputado == 1) = some ⟨1, "A", "PT", "SP", "F1"⟩ ∧
    FrenteNetwork.build_network ⟨requiredFrenteCols, cexFRows⟩ emptyG =
      .ok (frenteGraphOn emptyG cexFRows) ∧
    (frenteGraphOn emptyG cexFRows).nodes.find? (fun p => p.1 == 1) =
      some (1, ⟨"B", "PT", "SP"⟩) ∧
    some ((1 : Nat), (⟨"B", "PT", "SP"⟩ : NodeData)) ≠
      some ((1 : Nat), (⟨"A", "PT", "SP"⟩ : NodeData)) := by
  refine ⟨by decide, by decide, by decide, by decide⟩

/-- Witness for the amended C8 theorem on the consistent scenario table. -/
theorem node_attrs_first_row_amended_witness :
    ((frenteGraphOn emptyG exRows).nodes.filter (fun p => p.1 == 1)).length = 1 ∧
    (frenteGraphOn emptyG exRows).nodes.find? (fun p => p.1 == 1) =
      some (1, ⟨"A", "PT", "SP"⟩) := by
  have hok : FrenteNetwork.build_network ⟨requiredFrenteCols, exRows⟩ emptyG =
      Except.ok (frenteGraphOn emptyG exRows) := by decide
  exact node_attrs_first_row_amended.1 ⟨requiredFrenteCols, exRows⟩
    (frenteGraphOn emptyG exRows) (by decide) hok 1 ⟨1, "A", "PT", "SP", "FrenteX"⟩
    (by decide)

theorem addNodeL_addNodeL_same (k : Nat) (v v2 : NodeData) :
    ∀ X : List (Nat × NodeData), addNodeL k v2 (addNodeL k v X) = addNodeL k v2 X := by
  intro X
  induction X with
  | nil => simp [addNodeL]
  | cons e X ih =>
    by_cases he : e.1 = k
    · simp [addNodeL, he]
    · simp only [addNodeL, if_neg he]
      rw [ih]

theorem addNodeL_comm {k k2 : Nat} (v v2 : NodeData) (hkk : k ≠ k2) :
    ∀ X : List (Nat × NodeData), k ∈ X.map Prod.fst →
      addNodeL k2 v2 (addNodeL k v X) = addNodeL k v (addNodeL k2 v2 X) := by
  intro X
  induction X with
  | nil => intro h; simp at h
  | cons e X ih =>
    intro h
    by_cases he : e.1 = k
    · have hn2 : ¬ e.1 = k2 := by rw [he]; exact hkk
      rw [show addNodeL k v (e :: X) = (k, v) :: X from by simp [addNodeL, he]]
      rw [show addNodeL k2 v2 ((k, v) :: X) = (k, v) :: addNodeL k2 v2 X from
        by simp [addNodeL, hkk]]
      rw [show addNodeL k2 v2 (e :: X) = e :: addNodeL k2 v2 X from by simp [addNodeL, hn2]]
      rw [show addNodeL k v (e :: addNodeL k2 v2 X) = (k, v) :: addNodeL k2 v2 X from
        by simp [addNodeL, he]]
    · by_cases he2 : e.1 = k2
      · have hn1 : ¬ (k2 : Nat) = k := fun hc => hkk hc.symm
        rw [show addNodeL k v (e :: X) = e :: addNodeL k v X from by simp [addNodeL, he]]
        rw [show addNodeL k2 v2 (e :: addNodeL k v X) = (k2, v2) :: addNodeL k v X from
          by simp [addNodeL, he2]]
        rw [show addNodeL k2 v2 (e :: X) = (k2, v2) :: X from by simp [addNodeL, he2]]
        rw [show addNodeL k v ((k2, v2) :: X) = (k2, v2) :: addNodeL k v X from
          by simp [addNodeL, hn1]]
      · have hX : k ∈ X.map Prod.fst := by
          rcases List.mem_map.mp h with ⟨p, hp, hpe⟩
          rcases List.mem_cons.mp hp with rfl | hp'
          · exact absurd hpe he
          · exact List.mem_map.mpr ⟨p, hp', hpe⟩
        rw [show addNodeL k v (e :: X) = e :: addNodeL k v X from by simp [addNodeL, he]]
        rw [show addNodeL k2 v2 (e :: addNodeL k v X) =
            e :: addNodeL k2 v2 (addNodeL k v X) from by simp [addNodeL, he2]]
        rw [show addNodeL k2 v2 (e :: X) = e :: addNodeL k2 v2 X from
          by simp [addNodeL, he2]]
        rw [show addNodeL k v (e :: addNodeL k2 v2 X) =
            e :: addNodeL k v (addNodeL k2 v2 X) from by simp [addNodeL, he]]
        rw [ih hX]

theorem mem_keys_addNodeL_of_mem {k k2 : Nat} {v2 : NodeData}
    {X : List (Nat × NodeData)} (h : k ∈ X.map Prod.fst) :
    k ∈ (addNodeL k2 v2 X).map Prod.fst := by
  rw [keys_addNodeL]
  by_cases hk : k2 ∈ X.map Prod.fst
  · rw [if_pos hk]; exact h
  · rw [if_neg hk]
    exact List.mem_append_left _ h

theorem mem_keys_addNodeL_self (k : Nat) (v : NodeData) (X : List (Nat × NodeData)) :
    k ∈ (addNodeL k v X).map Prod.fst := by
  rw [keys_addNodeL]
  by_cases hk : k ∈ X.map Prod.fst
  · rw [if_pos hk]; exact hk
  · rw [if_neg hk]
    exact List.mem_append_right _ (by simp)

/-- Node dict lookup. -/
def lookupN (X : List (Nat × NodeData)) (k : Nat) : Option (Nat × NodeData) :=
  X.find? (fun p => p.1 == k)

theorem lookupN_addNodeL_self (k : Nat) (v : NodeData) :
    ∀ X : List (Nat × NodeData), lookupN (addNodeL k v X) k = some (k, v) := by
  intro X
  induction X with
  | nil => simp [lookupN, addNodeL, List.find?]
  | cons e X ih =>
    by_cases he : e.1 = k
    · simp [lookupN, addNodeL, he, List.find?]
    · have hne : (e.1 == k) = false := by simp [he]
      simp only [addNodeL, if_neg he, lookupN, List.find?, hne]
      exact ih

theorem lookupN_addNodeL_other {k k2 : Nat} {v2 : NodeData} (hkk : k ≠ k2) :
    ∀ X : List (Nat × NodeData), lookupN (addNodeL k2 v2 X) k = lookupN X k := by
  have hb : ((k2 : Nat) == k) = false := by
    simp only [beq_eq_false_iff_ne, ne_eq]
    exact fun hc => hkk hc.symm
  intro X
  induction X with
  | nil => simp [lookupN, addNodeL, List.find?, hb]
  | cons e X ih =>
    by_cases he : e.1 = k2
    · have h2 : (e.1 == k) = false := by rw [he]; exact hb
      simp only [addNodeL, if_pos he, lookupN, List.find?, hb, h2]
    · simp only [addNodeL, if_neg he, lookupN, List.find?]
      cases hek : (e.1 == k)
      · exact ih
      · rfl

theorem lookupN_napply_not_mem {k : Nat} :
    ∀ (es : List (Nat × NodeData)) (X : List (Nat × NodeData)), k ∉ es.map Prod.fst →
      lookupN (napply X es) k = lookupN X k := by
  intro es
  induction es with
  | nil => intro X _; rfl
  | cons e es ih =>
    intro X h
    have hke : k ≠ e.1 := by
      intro hc
      exact h (by simp [hc])
    show lookupN (napply (addNodeL e.1 e.2 X) es) k = _
    rw [ih _ (fun hc => h (by simp [hc])), lookupN_addNodeL_other hke]

theorem addNodeL_lookup_self {k : Nat} {v : NodeData} :
    ∀ {X : List (Nat × NodeData)}, lookupN X k = some (k, v) → addNodeL k v X = X := by
  intro X
  induction X with
  | nil => intro h; simp [lookupN, List.find?] at h
  | cons e X ih =>
    intro h
    by_cases he : e.1 = k
    · have hek : (e.1 == k) = true := by simp [he]
      rw [lookupN, List.find?, hek] at h
      have he2 : e = (k, v) := by
        injection h with h2
      rw [show addNodeL k v (e :: X) = (k, v) :: X from by simp [addNodeL, he], he2]
    · have hek : (e.1 == k) = false := by simp [he]
      rw [lookupN, List.find?, hek] at h
      rw [show addNodeL k v (e :: X) = e :: addNodeL k v X from by simp [addNodeL, he]]
      rw [ih h]

theorem napply_addNodeL_mem {k : Nat} {v : NodeData} :
    ∀ (es X : List (Nat × NodeData)), k ∈ X.map Prod.fst → k ∈ es.map Prod.fst →
      napply (addNodeL k v X) es = napply X es := by
  intro es
  induction es with
  | nil => intro X _ h; simp at h
  | cons e es ih =>
    intro X hkX hkes
    show napply (addNodeL e.1 e.2 (addNodeL k v X)) es = napply (addNodeL e.1 e.2 X) es
    by_cases hkk : e.1 = k
    · rw [hkk, addNodeL_addNodeL_same]
    · have hkne : k ≠ e.1 := fun hc => hkk hc.symm
      rw [addNodeL_comm v e.2 hkne X hkX]
      have hkes2 : k ∈ es.map Prod.fst := by
        rcases List.mem_map.mp hkes with ⟨p, hp, hpe⟩
        rcases List.mem_cons.mp hp with rfl | hp'
        · exact absurd hpe hkk
        · exact List.mem_map.mpr ⟨p, hp', hpe⟩
      exact ih _ (mem_keys_addNodeL_of_mem hkX) hkes2

theorem napply_idem : ∀ (es ns : List (Nat × NodeData)),
    napply (napply ns es) es = napply ns es := by
  intro es
  induction es with
  | nil => intro ns; rfl
  | cons e es ih =>
    intro ns
    show napply (addNodeL e.1 e.2 (napply (addNodeL e.1 e.2 ns) es)) es =
      napply (addNodeL e.1 e.2 ns) es
    by_cases hk : e.1 ∈ es.map Prod.fst
    · have hkH : e.1 ∈ (napply (addNodeL e.1 e.2 ns) es).map Prod.fst := by
        rw [mem_keys_napply]
        exact Or.inl (mem_keys_addNodeL_self e.1 e.2 ns)
      rw [napply_addNodeL_mem es _ hkH hk]
      exact ih (addNodeL e.1 e.2 ns)
    · have hlook : lookupN (napply (addNodeL e.1 e.2 ns) es) e.1 = some (e.1, e.2) := by
        rw [lookupN_napply_not_mem es _ hk]
        exact lookupN_addNodeL_self e.1 e.2 ns
      rw [addNodeL_lookup_self hlook]
      exact ih (addNodeL e.1 e.2 ns)

theorem addEdgeL_getWL_self {a b : Nat} {w : Int} :
    ∀ {es : List Edge}, getWL es a b = some w → addEdgeL a b w es = es := by
  intro es
  induction es with
  | nil => intro h; simp [getWL, List.find?] at h
  | cons e es ih =>
    intro h
    cases hM : isEdge a b e with
    | true =>
      rw [getWL, List.find?, hM] at h
      have hw : e.2.2 = w := by injection h
      rw [show addEdgeL a b w (e :: es) = (e.1, e.2.1, w) :: es from by simp [addEdgeL, hM]]
      rw [← hw]
    | false =>
      rw [getWL, List.find?, hM] at h
      rw [show addEdgeL a b w (e :: es) = e :: addEdgeL a b w es from by simp [addEdgeL, hM]]
      rw [ih h]

theorem frente_step_fixed (rows : List FrenteRow) :
    ∀ p ∈ pairsList (deputadosF rows),
      frenteEdgeStep rows (frenteGraphOn emptyG rows) p = frenteGraphOn emptyG rows := by
  intro p hp
  rw [show frenteEdgeStep rows (frenteGraphOn emptyG rows) p =
      (if 0 < pesoF rows p.1 p.2 then
        (frenteGraphOn emptyG rows).add_edge p.1 p.2 ((pesoF rows p.1 p.2 : Int))
      else frenteGraphOn emptyG rows) from rfl]
  by_cases hw : 0 < pesoF rows p.1 p.2
  · rw [if_pos hw]
    have hW : (frenteGraphOn emptyG rows).getW p.1 p.2 = some ((pesoF rows p.1 p.2 : Int)) := by
      rw [frenteGraphOn_eq, getW_frenteFold]
      rw [if_pos ⟨⟨p, hp, sameU_refl p.1 p.2⟩, hw⟩]
    show Graph.mk (frenteGraphOn emptyG rows).nodes
      (addEdgeL p.1 p.2 ((pesoF rows p.1 p.2 : Int)) (frenteGraphOn emptyG rows).edges) = _
    rw [addEdgeL_getWL_self hW]
  · rw [if_neg hw]

/-- C10: the membership build is idempotent.  Calling `build_network` a second
time on the same instance (whose owned graph already holds the first result)
leaves the graph exactly as after the first call: every node attribute and every
positive pair weight is recomputed to the identical value and overwritten in
place, and no list entry moves. -/
theorem frente_build_idempotent (df : FrenteDF) (g1 g2 : Graph)
    (h1 : FrenteNetwork.build_network df emptyG = .ok g1)
    (h2 : FrenteNetwork.build_network df g1 = .ok g2) : g2 = g1 := by
  obtain rfl := frente_build_ok h1
  obtain rfl := frente_build_ok h2
  have hnodes : applyNodes (frenteGraphOn emptyG df.rows) (frenteEntries df.rows) =
      frenteGraphOn emptyG df.rows := by
    rw [applyNodes_eq]
    have hn : napply (frenteGraphOn emptyG df.rows).nodes (frenteEntries df.rows) =
        (frenteGraphOn emptyG df.rows).nodes := by
      rw [frenteGraphOn_nodes]
      exact napply_idem _ _
    rw [hn]
  show (pairsList (deputadosF df.rows)).foldl (frenteEdgeStep df.rows)
    (applyNodes (frenteGraphOn emptyG df.rows) (frenteEntries df.rows)) = _
  rw [hnodes]
  exact foldl_fixed _ (frente_step_fixed df.rows)

/-- Witness for C10: building twice over the scenario table returns the first
graph unchanged. -/
theorem frente_build_idempotent_witness :
    frenteGraphOn (frenteGraphOn emptyG exRows) exRows = frenteGraphOn emptyG exRows := by
  have h1 : FrenteNetwork.build_network ⟨requiredFrenteCols, exRows⟩ emptyG =
      Except.ok (frenteGraphOn emptyG exRows) := by decide
  have h2 : FrenteNetwork.build_network ⟨requiredFrenteCols, exRows⟩
      (frenteGraphOn emptyG exRows) =
      Except.ok (frenteGraphOn (frenteGraphOn emptyG exRows) exRows) := by decide
  exact frente_build_idempotent ⟨requiredFrenteCols, exRows⟩ _ _ h1 h2

/-- Orientation-insensitive canonical form of an edge entry. -/
def normE (e : Edge) : Edge := if e.1 ≤ e.2.1 then e else (e.2.1, e.1, e.2.2)

theorem normE_swap : ∀ e : Edge, normE (e.2.1, e.1, e.2.2) = normE e := by
  rintro ⟨x, y, w⟩
  show normE (y, x, w) = normE (x, y, w)
  unfold normE
  rcases Nat.lt_trichotomy x y with h | h | h
  · rw [if_neg (show ¬ (y ≤ x) by omega), if_pos (show x ≤ y by omega)]
  · subst h
    simp
  · rw [if_pos (show y ≤ x by omega), if_neg (show ¬ (x ≤ y) by omega)]

theorem normE_orientEdge (n : Nat) (e : Edge) : normE (orientEdge n e) = normE e := by
  unfold orientEdge
  by_cases he : e.1 = n
  · rw [if_pos he]
  · rw [if_neg he]
    exact normE_swap e

theorem edgeOwner_mem (g : Graph) (e : Edge) :
    edgeOwner g e = e.1 ∨ edgeOwner g e = e.2.1 := by
  unfold edgeOwner
  by_cases h : nodeIdx g e.1 ≤ nodeIdx g e.2.1
  · rw [if_pos h]
    exact Or.inl rfl
  · rw [if_neg h]
    exact Or.inr rfl

/-- Concatenate, for each key in order, the entries owned by that key. -/
def groupsBy (f : Edge → Nat) : List Nat → List Edge → List Edge
  | [], _ => []
  | k :: ks, es => es.filter (fun e => f e == k) ++ groupsBy f ks es

theorem groupsBy_filter_ne (f : Edge → Nat) {k : Nat} :
    ∀ (ks : List Nat) (es : List Edge), k ∉ ks →
      groupsBy f ks es = groupsBy f ks (es.filter (fun e => !(f e == k))) := by
  intro ks
  induction ks with
  | nil => intro es _; rfl
  | cons j ks ih =>
    intro es hk
    have hkj : k ≠ j := fun hc => hk (by simp [hc])
    show es.filter (fun e => f e == j) ++ groupsBy f ks es = _
    rw [show groupsBy f (j :: ks) (es.filter (fun e => !(f e == k))) =
        (es.filter (fun e => !(f e == k))).filter (fun e => f e == j) ++
          groupsBy f ks (es.filter (fun e => !(f e == k))) from rfl]
    rw [← ih es (fun hc => hk (List.mem_cons_of_mem j hc))]
    have hfe : (es.filter (fun e => !(f e == k))).filter (fun e => f e == j) =
        es.filter (fun e => f e == j) := by
      rw [List.filter_filter]
      refine List.filter_congr ?_
      intro e _
      cases hj : (f e == j)
      · simp
      · have hfj : f e = j := beq_iff_eq.mp hj
        have hjk : ¬ (j = k) := fun hc => hkj hc.symm
        have hfk : (f e == k) = false := by
          rw [hfj]
          simp [hjk]
        simp [hfk]
    rw [hfe]

theorem groupsBy_perm (f : Edge → Nat) :
    ∀ (ks : List Nat) (es : List Edge), ks.Nodup → (∀ e ∈ es, f e ∈ ks) →
      (groupsBy f ks es).Perm es := by
  intro ks
  induction ks with
  | nil =>
    intro es _ h
    cases es with
    | nil => exact List.Perm.refl []
    | cons e es => exact absurd (h e (List.mem_cons_self e es)) (List.not_mem_nil _)
  | cons k ks ih =>
    intro es hnd h
    rw [List.nodup_cons] at hnd
    show (es.filter (fun e => f e == k) ++ groupsBy f ks es).Perm es
    rw [groupsBy_filter_ne f ks es hnd.1]
    have hperm : (groupsBy f ks (es.filter (fun e => !(f e == k)))).Perm
        (es.filter (fun e => !(f e == k))) := by
      refine ih _ hnd.2 ?_
      intro e he
      rw [List.mem_filter] at he
      have h1 := h e he.1
      rcases List.mem_cons.mp h1 with hc | hc
      · exfalso
        have : (f e == k) = true := beq_iff_eq.mpr hc
        rw [this] at he
        exact Bool.false_ne_true (by simpa using he.2)
      · exact hc
    exact List.Perm.trans (List.Perm.append_left _ hperm) (List.filter_append_perm _ es)

theorem edgesDataAux_map_norm (g : Graph) :
    ∀ ns : List (Nat × NodeData), (edgesDataAux g ns).map normE =
      (groupsBy (edgeOwner g) (ns.map Prod.fst) g.edges).map normE := by
  intro ns
  induction ns with
  | nil => rfl
  | cons n ns ih =>
    show (((g.edges.filter (fun e => edgeOwner g e == n.1)).map (orientEdge n.1)) ++
      edgesDataAux g ns).map normE = _
    rw [List.map_append, List.map_map, ih]
    rw [show groupsBy (edgeOwner g) ((n :: ns).map Prod.fst) g.edges =
        g.edges.filter (fun e => edgeOwner g e == n.1) ++
          groupsBy (edgeOwner g) (ns.map Prod.fst) g.edges from rfl]
    rw [List.map_append]
    congr 1
    refine List.map_congr_left ?_
    intro e _
    exact normE_orientEdge n.1 e

/-- The networkx edge view is, up to reported orientation, a permutation of the
stored edges, provided nodes are unique and every edge endpoint is a node. -/
theorem edgesData_perm_norm (g : Graph) (hnd : (g.nodes.map Prod.fst).Nodup)
    (hin : ∀ e ∈ g.edges, e.1 ∈ g.nodes.map Prod.fst ∧ e.2.1 ∈ g.nodes.map Prod.fst) :
    ((edgesData g).map normE).Perm (g.edges.map normE) := by
  rw [show edgesData g = edgesDataAux g g.nodes from rfl, edgesDataAux_map_norm]
  refine (groupsBy_perm (edgeOwner g) (g.nodes.map Prod.fst) g.edges hnd ?_).map normE
  intro e he
  rcases edgeOwner_mem g e with h | h
  · rw [h]
    exact (hin e he).1
  · rw [h]
    exact (hin e he).2

/-- Endpoint containment for the finished membership graph. -/
theorem frente_endpoints (rows : List FrenteRow) :
    ∀ e ∈ (frenteGraphOn emptyG rows).edges,
      e.1 ∈ (frenteGraphOn emptyG rows).nodes.map Prod.fst ∧
      e.2.1 ∈ (frenteGraphOn emptyG rows).nodes.map Prod.fst := by
  rw [frenteGraphOn_eq]
  refine (foldl_preserve (fun g : Graph =>
      (∀ x ∈ deputadosF rows, x ∈ g.nodes.map Prod.fst) ∧
      (∀ e ∈ g.edges, e.1 ∈ g.nodes.map Prod.fst ∧ e.2.1 ∈ g.nodes.map Prod.fst))
    (pairsList (deputadosF rows))
    (Graph.mk (napply emptyG.nodes (frenteEntries rows)) emptyG.edges) ?_ ?_).2
  · intro p hp g' hg'
    have hmem := mem_pairsList _ hp
    have h1 : p.1 ∈ g'.nodes.map Prod.fst := hg'.1 p.1 hmem.1
    have h2 : p.2 ∈ g'.nodes.map Prod.fst := hg'.1 p.2 hmem.2
    rw [show frenteEdgeStep rows g' p =
        (if 0 < pesoF rows p.1 p.2 then
          g'.add_edge p.1 p.2 ((pesoF rows p.1 p.2 : Int)) else g') from rfl]
    by_cases hw : 0 < pesoF rows p.1 p.2
    · rw [if_pos hw]
      refine ⟨hg'.1, ?_⟩
      intro e he
      rcases mem_addEdgeL_keys he with hk | ⟨e', he', hk1, hk2⟩
      · rcases hk with ⟨hk1, hk2⟩ | ⟨hk1, hk2⟩
        · rw [hk1, hk2]
          exact ⟨h1, h2⟩
        · rw [hk1, hk2]
          exact ⟨h2, h1⟩
      · rw [hk1, hk2]
        exact hg'.2 e' he'
    · rw [if_neg hw]
      exact hg'
  · constructor
    · intro x hx
      rw [show (Graph.mk (napply emptyG.nodes (frenteEntries rows)) emptyG.edges).nodes =
          napply emptyG.nodes (frenteEntries rows) from rfl, mem_keys_napply,
        keys_frenteEntries]
      exact Or.inr hx
    · intro e he
      exact absurd he (List.not_mem_nil e)

/-- Endpoint containment for the finished voting graph. -/
theorem voting_endpoints (rows : List VotingRow) :
    ∀ e ∈ (votingGraphOn emptyG rows).edges,
      e.1 ∈ (votingGraphOn emptyG rows).nodes.map Prod.fst ∧
      e.2.1 ∈ (votingGraphOn emptyG rows).nodes.map Prod.fst := by
  rw [votingGraphOn_eq]
  refine (foldl_preserve (fun g : Graph =>
      (∀ r ∈ rows, r.id_deputado ∈ g.nodes.map Prod.fst) ∧
      (∀ e ∈ g.edges, e.1 ∈ g.nodes.map Prod.fst ∧ e.2.1 ∈ g.nodes.map Prod.fst))
    (ballotsOf rows)
    (Graph.mk (napply emptyG.nodes (votingEntries rows)) emptyG.edges) ?_ ?_).2
  · intro v _ g0 hg0
    unfold ballotStep
    refine foldl_preserve (fun g : Graph =>
        (∀ r ∈ rows, r.id_deputado ∈ g.nodes.map Prod.fst) ∧
        (∀ e ∈ g.edges, e.1 ∈ g.nodes.map Prod.fst ∧ e.2.1 ∈ g.nodes.map Prod.fst))
      _ g0 ?_ hg0
    intro p hp g' hg'
    have hmem := mem_pairsList _ hp
    have h1 : p.1 ∈ g'.nodes.map Prod.fst := by
      obtain ⟨r, hr, _, hrd⟩ := (mem_depsIn rows).mp hmem.1
      rw [← hrd]
      exact hg'.1 r hr
    have h2 : p.2 ∈ g'.nodes.map Prod.fst := by
      obtain ⟨r, hr, _, hrd⟩ := (mem_depsIn rows).mp hmem.2
      rw [← hrd]
      exact hg'.1 r hr
    rw [show votePairStep (voteOf rows v) g' p =
        ((if g'.has_edge p.1 p.2 = true then g' else g'.add_edge p.1 p.2 0).inc_edge p.1 p.2
          (if voteOf rows v p.1 = voteOf rows v p.2 then 1 else -1)) from rfl]
    by_cases hh : g'.has_edge p.1 p.2 = true
    · rw [if_pos hh]
      refine ⟨hg'.1, ?_⟩
      intro e he
      obtain ⟨e', he', hk1, hk2⟩ := mem_incEdgeL_keys he
      rw [hk1, hk2]
      exact hg'.2 e' he'
    · rw [if_neg hh]
      refine ⟨hg'.1, ?_⟩
      intro e he
      obtain ⟨e', he', hk1, hk2⟩ := mem_incEdgeL_keys he
      rw [hk1, hk2]
      rcases mem_addEdgeL_keys he' with hk | ⟨e2, he2, hj1, hj2⟩
      · rcases hk with ⟨hj1, hj2⟩ | ⟨hj1, hj2⟩
        · rw [hj1, hj2]
          exact ⟨h1, h2⟩
        · rw [hj1, hj2]
          exact ⟨h2, h1⟩
      · rw [hj1, hj2]
        exact hg'.2 e2 he2
  · constructor
    · intro r hr
      rw [show (Graph.mk (napply emptyG.nodes (votingEntries rows)) emptyG.edges).nodes =
          napply emptyG.nodes (votingEntries rows) from rfl, mem_keys_napply,
        keys_votingEntries, mem_deputadosV]
      exact Or.inr ⟨r, hr, rfl⟩
    · intro e he
      exact absurd he (List.not_mem_nil e)

theorem filterW_orderedInsert (x : Edge) (w : Int) :
    ∀ l : List Edge, (List.orderedInsert wle x l).filter (fun e => e.2.2 == w) =
      (if (x.2.2 == w) = true then x :: l.filter (fun e => e.2.2 == w)
       else l.filter (fun e => e.2.2 == w)) := by
  intro l
  induction l with
  | nil =>
    rw [List.orderedInsert_nil, List.filter_cons]
  | cons b l ih =>
    rw [show List.orderedInsert wle x (b :: l) =
        (if wle x b then x :: b :: l else b :: List.orderedInsert wle x l) from rfl]
    by_cases hwb : wle x b
    · rw [if_pos hwb, List.filter_cons]
    · rw [if_neg hwb, List.filter_cons, ih]
      by_cases hx : (x.2.2 == w) = true
      · have hlt : b.2.2 < x.2.2 := by
          unfold wle at hwb
          omega
        have hb : (b.2.2 == w) = false := by
          have hxw : x.2.2 = w := beq_iff_eq.mp hx
          rw [beq_eq_false_iff_ne]
          intro hc
          omega
        rw [if_pos hx, if_pos hx, if_neg (by simp [hb]), List.filter_cons,
          if_neg (by simp [hb])]
      · rw [if_neg hx, if_neg hx, List.filter_cons]

theorem filterW_insertionSort (w : Int) :
    ∀ l : List Edge, (List.insertionSort wle l).filter (fun e => e.2.2 == w) =
      l.filter (fun e => e.2.2 == w) := by
  intro l
  induction l with
  | nil => rfl
  | cons x l ih =>
    rw [show List.insertionSort wle (x :: l) =
        List.orderedInsert wle x (List.insertionSort wle l) from rfl]
    rw [filterW_orderedInsert, ih, List.filter_cons]

/-- C4 (amended): `get_sorted_edges` returns a non-decreasing-by-weight, stable,
deterministic sort of the graph's edge iteration view; it contains exactly the
graph's edges up to reported orientation.  Ties are broken by the networkx
adjacency iteration order (`edgesData`: edges grouped under their earlier
endpoint in node order), which is not the global edge insertion order — see the
counterexample. -/
theorem get_sorted_edges_amended :
    (∀ g : Graph,
      List.Sorted wle (BaseNetwork.get_sorted_edges g) ∧
      (∀ w : Int, (BaseNetwork.get_sorted_edges g).filter (fun e => e.2.2 == w) =
        (edgesData g).filter (fun e => e.2.2 == w)) ∧
      BaseNetwork.get_sorted_edges g = BaseNetwork.get_sorted_edges g) ∧
    (∀ (df : FrenteDF) (g : Graph), FrenteNetwork.build_network df emptyG = .ok g →
      ((BaseNetwork.get_sorted_edges g).map normE).Perm (g.edges.map normE)) ∧
    (∀ (df : VotingDF) (g : Graph), VotingNetwork.build_network df emptyG = .ok g →
      ((BaseNetwork.get_sorted_edges g).map normE).Perm (g.edges.map normE)) := by
  refine ⟨?_, ?_, ?_⟩
  · intro g
    exact ⟨List.sorted_insertionSort wle _, fun w => filterW_insertionSort w _, rfl⟩
  · intro df g hok
    obtain rfl := frente_build_ok hok
    have hnd : ((frenteGraphOn emptyG df.rows).nodes.map Prod.fst).Nodup := by
      rw [frenteGraphOn_nodes]
      exact keys_napply_nodup _ _ (by simp [emptyG])
    have hperm1 := (List.perm_insertionSort wle
      (edgesData (frenteGraphOn emptyG df.rows))).map normE
    exact hperm1.trans (edgesData_perm_norm _ hnd (frente_endpoints df.rows))
  · intro df g hok
    obtain rfl := voting_build_ok hok
    have hnd : ((votingGraphOn emptyG df.rows).nodes.map Prod.fst).Nodup := by
      rw [votingGraphOn_nodes]
      exact keys_napply_nodup _ _ (by simp [emptyG])
    have hperm1 := (List.perm_insertionSort wle
      (edgesData (votingGraphOn emptyG df.rows))).map normE
    exact hperm1.trans (edgesData_perm_norm _ hnd (voting_endpoints df.rows))

/-- Voting table whose two equal-weight edges are inserted in the order (2,3)
then (1,2), while node order is 1, 2, 3. -/
def cexORows : List VotingRow :=
  [⟨1, "A", "P", "S", 2, "Sim"⟩, ⟨2, "B", "P", "S", 1, "Sim"⟩,
   ⟨3, "C", "P", "S", 1, "Sim"⟩, ⟨2, "B", "P", "S", 2, "Sim"⟩]

/-- C4 counterexample: the build inserts edge (2,3) before edge (1,2), both with
weight 1, yet `get_sorted_edges` returns (1,2) first — ties are broken by the
adjacency iteration order of `G.edges()`, not by edge insertion order, so a
stable sort of the insertion-order list predicts the wrong output. -/
theorem get_sorted_edges_inorder_cex :
    VotingNetwork.build_network ⟨requiredVotingCols, cexORows⟩ emptyG =
      .ok (votingGraphOn emptyG cexORows) ∧
    (votingGraphOn emptyG cexORows).edges = [(2, 3, 1), (1, 2, 1)] ∧
    BaseNetwork.get_sorted_edges (votingGraphOn emptyG cexORows) =
      [(1, 2, 1), (2, 3, 1)] ∧
    List.insertionSort wle (votingGraphOn emptyG cexORows).edges =
      [(2, 3, 1), (1, 2, 1)] ∧
    ([(1, 2, 1), (2, 3, 1)] : List Edge) ≠ [(2, 3, 1), (1, 2, 1)] := by
  refine ⟨by decide, by decide, by decide, by decide, by decide⟩

/-- Witness for the amended C4 theorem on the two scenario graphs. -/
theorem get_sorted_edges_amended_witness :
    ((BaseNetwork.get_sorted_edges (frenteGraphOn emptyG exRows)).map normE).Perm
      ((frenteGraphOn emptyG exRows).edges.map normE) ∧
    ((BaseNetwork.get_sorted_edges (votingGraphOn emptyG exVRows)).map normE).Perm
      ((votingGraphOn emptyG exVRows).edges.map normE) := by
  have hok1 : FrenteNetwork.build_network ⟨requiredFrenteCols, exRows⟩ emptyG =
      Except.ok (frenteGraphOn emptyG exRows) := by decide
  have hok2 : VotingNetwork.build_network ⟨requiredVotingCols, exVRows⟩ emptyG =
      Except.ok (votingGraphOn emptyG exVRows) := by decide
  exact ⟨get_sorted_edges_amended.2.1 ⟨requiredFrenteCols, exRows⟩ _ hok1,
    get_sorted_edges_amended.2.2 ⟨requiredVotingCols, exVRows⟩ _ hok2⟩
